import Mathlib

/-!
# Verification of the route-optimization engine

A shallow embedding, in Lean 4, of the core of the `route-optimization`
repository: the geo kernel (`optimization/utils/distance.py`), the constraint
kernel (`optimization/utils/constraints.py`), the solver framework
(`optimization/solvers/base_solver.py`), the greedy nearest-neighbor solver
(`optimization/solvers/greedy_solver.py`), the genetic solver
(`optimization/solvers/genetic_solver.py`) and the structural parts of the
CP-VRP solver (`optimization/solvers/vrp_solver.py`).

Modelling conventions:
* Python floats are modelled as rationals (`ℚ`).  `round(x, n)` is modelled as
  `roundTo n` (round to `n` decimal places); the Python/IEEE tie-breaking mode
  at exact half-way points is immaterial to every property proved here.
* `datetime` values are modelled as rational minutes on an absolute time axis;
  `timedelta(minutes=m)` is addition of `m`; `(a - b).total_seconds() / 60`
  is the rational difference `a - b`.  A `datetime` object is always truthy in
  Python, so guards such as `if tw_start and ...` reduce to the condition
  to their right once inputs are validated.
* Python `raise` is modelled with `Except`: a raising function returns
  `Except E A`.  Inside solver loops the raising helpers are replaced by their
  total counterparts, together with lemmas showing the two agree on the
  domains guaranteed by input validation (non-negative distances, speeds,
  hours).
* Python `set` of strings is modelled by `List String` considered up to
  membership; `sorted` is modelled with `List.insertionSort` (Python's sort
  is stable, any two stable sorts by the same key agree, and on the distinct
  elements of a set the result is the unique ascending list).
-/

namespace RouteOpt

/-- Executable floor of a rational (`Rat.floor_def`: `⌊q⌋ = q.num / q.den`). -/
def ratFloor (q : ℚ) : ℤ := q.num / (q.den : ℤ)

theorem ratFloor_eq (q : ℚ) : ratFloor q = ⌊q⌋ := Rat.floor_def.symm

/-- `round(x, n)` from Python: round to `n` decimal places. -/
def roundTo (n : ℕ) (q : ℚ) : ℚ := ((ratFloor (q * 10 ^ n + 1 / 2) : ℤ) : ℚ) / 10 ^ n

theorem roundTo_eq_round (n : ℕ) (q : ℚ) :
    roundTo n q = ((round (q * 10 ^ n) : ℤ) : ℚ) / 10 ^ n := by
  rw [roundTo, ratFloor_eq, round_eq]

/-- Default travel speed (mph), the default of `estimate_travel_time` and the
`avg_speed_mph` config default. -/
def DEFAULT_AVG_SPEED_MPH : ℚ := 30

/-! ## Geo kernel: `optimization/utils/distance.py` -/

/-- `estimate_travel_time(distance_miles, speed_mph)`: raises on negative
distance or non-positive speed, otherwise `(d / s) * 60` rounded to 2
decimals. -/
def estimate_travel_time (distance_miles speed_mph : ℚ) : Except String ℚ :=
  if distance_miles < 0 then .error "distance_miles must be non-negative"
  else if speed_mph ≤ 0 then .error "speed_mph must be positive"
  else .ok (roundTo 2 (distance_miles / speed_mph * 60))

/-- `estimate_travel_time` with its default `speed_mph=30.0` argument. -/
def estimate_travel_time_default (distance_miles : ℚ) : Except String ℚ :=
  estimate_travel_time distance_miles DEFAULT_AVG_SPEED_MPH

/-- The value computed by `estimate_travel_time` on its non-raising domain;
used inside the solvers, where validated inputs keep distances non-negative
and speeds positive. -/
def travelTime (distance_miles speed_mph : ℚ) : ℚ :=
  roundTo 2 (distance_miles / speed_mph * 60)

theorem estimate_travel_time_eq_ok {d s : ℚ} (hd : 0 ≤ d) (hs : 0 < s) :
    estimate_travel_time d s = .ok (travelTime d s) := by
  unfold estimate_travel_time travelTime
  rw [if_neg (not_lt.mpr hd), if_neg (not_le.mpr hs)]

/-! ### `build_distance_matrix`

A location is a Python dict that may lack the `lat` or `lng` key; both
coordinates are therefore `Option ℚ`.  The haversine formula itself is
transcendental floating-point arithmetic, so it is abstracted as a parameter
`hav` of the builder (every property claimed of the builder is structural and
holds for any `hav`); `round(dist, 4)` stays explicit as `roundTo 4`.
Matrices are lists of rows; reading uses the default `0` / `[]` out of
bounds, and writing out of bounds is a no-op (`List.set` semantics), which is
never exercised by the in-range loops below. -/

/-- A location dict; a missing `lat`/`lng` key is `none`. -/
structure Location where
  lat : Option ℚ
  lng : Option ℚ
deriving DecidableEq

/-- Matrix read `m[i][j]` (0 out of bounds). -/
def mget (m : List (List ℚ)) (i j : ℕ) : ℚ := (m.getD i []).getD j 0

/-- Matrix write `m[i][j] = v`. -/
def mset (m : List (List ℚ)) (i j : ℕ) (v : ℚ) : List (List ℚ) :=
  m.set i ((m.getD i []).set j v)

/-- `[[0.0] * n for _ in range(n)]`. -/
def zeroMatrix (n : ℕ) : List (List ℚ) :=
  List.replicate n (List.replicate n 0)

/-- The validation loop of `build_distance_matrix`: raise at the first
location missing a coordinate. -/
def validateLocations : List Location → Except String Unit
  | [] => .ok ()
  | loc :: rest =>
    if loc.lat = none ∨ loc.lng = none then
      .error "Location is missing lat or lng"
    else validateLocations rest

/-- The `matrix[i][j] = dist; matrix[j][i] = dist` body of the fill loop. -/
def fillPair (m : List (List ℚ)) (i j : ℕ) (d : ℚ) : List (List ℚ) :=
  mset (mset m i j d) j i d

/-- The two nested fill loops of `build_distance_matrix`:
`for i in range(n): for j in range(i + 1, n): ...`. -/
def fillMatrix (hav : ℚ → ℚ → ℚ → ℚ → ℚ) (locations : List Location) :
    List (List ℚ) :=
  let n := locations.length
  (List.range n).foldl
    (fun m i =>
      ((List.range n).drop (i + 1)).foldl
        (fun m' j =>
          let li := locations.getD i ⟨none, none⟩
          let lj := locations.getD j ⟨none, none⟩
          fillPair m' i j
            (roundTo 4 (hav (li.lat.getD 0) (li.lng.getD 0)
              (lj.lat.getD 0) (lj.lng.getD 0))))
        m)
    (zeroMatrix n)

/-- `build_distance_matrix(locations)`, with the haversine formula abstracted
as `hav lat1 lng1 lat2 lng2`. -/
def build_distance_matrix (hav : ℚ → ℚ → ℚ → ℚ → ℚ) (locations : List Location) :
    Except String (List (List ℚ)) :=
  if locations.length = 0 then .ok []
  else
    match validateLocations locations with
    | .error e => .error e
    | .ok _ => .ok (fillMatrix hav locations)

theorem getD_replicate {α : Type} (n i : ℕ) (a b : α) :
    (List.replicate n a).getD i b = if i < n then a else b := by
  induction n generalizing i with
  | zero => simp
  | succ m ih =>
    cases i with
    | zero => simp [List.replicate]
    | succ k =>
      simp only [List.replicate, List.getD_cons_succ, ih]
      by_cases h : k < m
      · rw [if_pos h, if_pos (Nat.succ_lt_succ h)]
      · rw [if_neg h, if_neg (fun hk => h (Nat.lt_of_succ_lt_succ hk))]

theorem getD_set_self {α : Type} (l : List α) (i : ℕ) (v d : α)
    (h : i < l.length) : (l.set i v).getD i d = v := by
  simp [List.getD_eq_getElem?_getD, List.getElem?_set_self h]

theorem getD_set_ne {α : Type} (l : List α) (i a : ℕ) (v d : α)
    (h : a ≠ i) : (l.set i v).getD a d = l.getD a d := by
  simp [List.getD_eq_getElem?_getD, List.getElem?_set_ne (Ne.symm h)]

/-- Closed form of a single matrix write. -/
theorem mget_mset (m : List (List ℚ)) (i j : ℕ) (v : ℚ) (a b : ℕ) :
    mget (mset m i j v) a b =
      if a = i ∧ i < m.length ∧ b = j ∧ j < (m.getD i []).length then v
      else mget m a b := by
  unfold mget mset
  by_cases hai : a = i
  · subst hai
    by_cases hil : a < m.length
    · rw [getD_set_self _ _ _ _ hil]
      by_cases hbj : b = j
      · subst hbj
        by_cases hjl : b < (m.getD a []).length
        · rw [getD_set_self _ _ _ _ hjl, if_pos ⟨rfl, hil, rfl, hjl⟩]
        · rw [List.set_eq_of_length_le (Nat.le_of_not_lt hjl)]
          rw [if_neg (fun hc => hjl hc.2.2.2)]
      · rw [getD_set_ne _ _ _ _ _ hbj, if_neg (fun hc => hbj hc.2.2.1)]
    · rw [List.set_eq_of_length_le (Nat.le_of_not_lt hil)]
      rw [if_neg (fun hc => hil hc.2.1)]
  · rw [getD_set_ne _ _ _ _ _ hai, if_neg (fun hc => hai hc.1)]

theorem mset_length (m : List (List ℚ)) (i j : ℕ) (v : ℚ) :
    (mset m i j v).length = m.length := by
  unfold mset; exact List.length_set ..

/-- The row a matrix actually contains at an in-range index. -/
theorem getD_mem_of_lt (m : List (List ℚ)) (k : ℕ) (hk : k < m.length) :
    m.getD k [] ∈ m := by
  simp [List.getD_eq_getElem?_getD, List.getElem?_eq_getElem hk]

theorem mset_rows (m : List (List ℚ)) (i j : ℕ) (v : ℚ) (n : ℕ)
    (hm : ∀ r ∈ m, r.length = n) : ∀ r ∈ mset m i j v, r.length = n := by
  intro r hr
  by_cases hil : i < m.length
  · rcases List.mem_or_eq_of_mem_set hr with h | h
    · exact hm r h
    · subst h
      rw [List.length_set]
      exact hm _ (getD_mem_of_lt m i hil)
  · rw [mset, List.set_eq_of_length_le (Nat.le_of_not_lt hil)] at hr
    exact hm r hr

/-- The well-formedness invariant carried through the fill loops. -/
def MatInv (n : ℕ) (m : List (List ℚ)) : Prop :=
  m.length = n ∧ (∀ r ∈ m, r.length = n) ∧
    (∀ a b, mget m a b = mget m b a) ∧ (∀ a, mget m a a = 0)

theorem foldl_preserve {α β : Type} (P : β → Prop) (f : β → α → β)
    (l : List α) (h : ∀ b a, a ∈ l → P b → P (f b a)) (b : β) (hb : P b) :
    P (l.foldl f b) := by
  induction l generalizing b with
  | nil => exact hb
  | cons x xs ih =>
    exact ih (fun b' a ha hb' => h b' a (List.mem_cons_of_mem _ ha) hb')
      _ (h b x (List.mem_cons_self ..) hb)

theorem matInv_zeroMatrix (n : ℕ) : MatInv n (zeroMatrix n) := by
  have hget : ∀ a b, mget (zeroMatrix n) a b = 0 := by
    intro a b
    unfold mget zeroMatrix
    rw [getD_replicate]
    by_cases h : a < n
    · rw [if_pos h, getD_replicate]
      by_cases h' : b < n
      · rw [if_pos h']
      · rw [if_neg h']
    · rw [if_neg h]; rfl
  refine ⟨List.length_replicate .., ?_, fun a b => by rw [hget, hget],
    fun a => hget a a⟩
  intro r hr
  rw [List.eq_of_mem_replicate hr]
  exact List.length_replicate ..

theorem matInv_fillPair {n : ℕ} {m : List (List ℚ)} (hm : MatInv n m)
    {i j : ℕ} (hi : i < n) (hj : j < n) (hij : i ≠ j) (d : ℚ) :
    MatInv n (fillPair m i j d) := by
  obtain ⟨hlen, hrows, hsym, hdiag⟩ := hm
  have hilen : i < m.length := by rw [hlen]; exact hi
  have hjlen : j < m.length := by rw [hlen]; exact hj
  have hrowi : (m.getD i []).length = n := hrows _ (getD_mem_of_lt m i hilen)
  have hlen1 : (mset m i j d).length = m.length := mset_length ..
  have hrows1 : ∀ r ∈ mset m i j d, r.length = n := mset_rows _ _ _ _ _ hrows
  have hjlen1 : j < (mset m i j d).length := by rw [hlen1]; exact hjlen
  have hrowj1 : ((mset m i j d).getD j []).length = n :=
    hrows1 _ (getD_mem_of_lt _ j hjlen1)
  have hget : ∀ a b, mget (fillPair m i j d) a b =
      if (a = i ∧ b = j) ∨ (a = j ∧ b = i) then d else mget m a b := by
    intro a b
    unfold fillPair
    rw [mget_mset, mget_mset]
    by_cases h1 : a = j ∧ b = i
    · rw [if_pos ⟨h1.1, hjlen1, h1.2, by rw [hrowj1]; exact hi⟩,
        if_pos (Or.inr h1)]
    · rw [if_neg (fun hc => h1 ⟨hc.1, hc.2.2.1⟩)]
      by_cases h2 : a = i ∧ b = j
      · rw [if_pos ⟨h2.1, hilen, h2.2, by rw [hrowi]; exact hj⟩,
          if_pos (Or.inl h2)]
      · rw [if_neg (fun hc => h2 ⟨hc.1, hc.2.2.1⟩),
          if_neg (fun hc => hc.elim h2 h1)]
  refine ⟨by rw [fillPair, mset_length, mset_length, hlen],
    fun r hr => mset_rows _ _ _ _ _ hrows1 r hr, ?_, ?_⟩
  · intro a b
    rw [hget, hget]
    by_cases h : (a = i ∧ b = j) ∨ (a = j ∧ b = i)
    · rw [if_pos h, if_pos (h.elim (fun hc => Or.inr ⟨hc.2, hc.1⟩)
        (fun hc => Or.inl ⟨hc.2, hc.1⟩))]
    · rw [if_neg h, if_neg (fun hc => h (hc.elim (fun hc' => Or.inr ⟨hc'.2, hc'.1⟩)
        (fun hc' => Or.inl ⟨hc'.2, hc'.1⟩))), hsym]
  · intro a
    rw [hget]
    rw [if_neg (fun hc => hij (hc.elim (fun hc' => hc'.1.symm.trans hc'.2)
      (fun hc' => hc'.2.symm.trans hc'.1))), hdiag]

theorem mem_drop_range {n k j : ℕ} (h : j ∈ (List.range n).drop k) :
    k ≤ j ∧ j < n := by
  obtain ⟨i, hi, hget⟩ := List.getElem_of_mem h
  rw [List.getElem_drop, List.getElem_range] at hget
  subst hget
  refine ⟨Nat.le_add_right .., ?_⟩
  have := hi
  rw [List.length_drop, List.length_range] at this
  omega

theorem validateLocations_ok_iff (locs : List Location) :
    validateLocations locs = .ok () ↔
      ∀ loc ∈ locs, loc.lat ≠ none ∧ loc.lng ≠ none := by
  induction locs with
  | nil => simp [validateLocations]
  | cons l rest ih =>
    unfold validateLocations
    by_cases h : l.lat = none ∨ l.lng = none
    · rw [if_pos h]
      simp only [List.mem_cons]
      constructor
      · intro hcon; exact Except.noConfusion hcon
      · intro hall
        rcases h with h | h
        · exact absurd h (hall l (Or.inl rfl)).1
        · exact absurd h (hall l (Or.inl rfl)).2
    · rw [if_neg h]
      push_neg at h
      rw [ih]
      constructor
      · intro hall loc hloc
        rcases List.mem_cons.mp hloc with rfl | hloc'
        · exact h
        · exact hall loc hloc'
      · intro hall loc hloc
        exact hall loc (List.mem_cons_of_mem _ hloc)

theorem validateLocations_cases (locs : List Location) :
    validateLocations locs = .ok () ∨ ∃ e, validateLocations locs = .error e := by
  cases h : validateLocations locs with
  | ok v => cases v; exact Or.inl rfl
  | error e => exact Or.inr ⟨e, rfl⟩

/-! ### Claim C9 -/

/-- C9: `build_distance_matrix(locations)` raises an error iff some location
lacks a `lat` or `lng` key; otherwise, for every input list of N locations
with both coordinates, it returns an N x N matrix that is symmetric with
every diagonal entry equal to 0.  Stated for an arbitrary pairwise distance
function `hav` standing for the floating-point haversine formula. -/
theorem C9_build_distance_matrix_spec (hav : ℚ → ℚ → ℚ → ℚ → ℚ)
    (locations : List Location) :
    ((∃ e, build_distance_matrix hav locations = .error e) ↔
      ∃ loc ∈ locations, loc.lat = none ∨ loc.lng = none)
    ∧ (∀ M, build_distance_matrix hav locations = .ok M →
        M.length = locations.length ∧
        (∀ row ∈ M, row.length = locations.length) ∧
        (∀ i j, mget M i j = mget M j i) ∧ (∀ i, mget M i i = 0)) := by
  by_cases hn : locations.length = 0
  · rw [List.length_eq_zero] at hn
    subst hn
    have hnil : build_distance_matrix hav [] = .ok [] := rfl
    constructor
    · constructor
      · rintro ⟨e, he⟩
        rw [hnil] at he
        exact Except.noConfusion he
      · rintro ⟨loc, hloc, _⟩
        exact absurd hloc (List.not_mem_nil loc)
    · intro M hM
      rw [hnil] at hM
      cases Except.ok.inj hM
      refine ⟨rfl, fun row hrow => absurd hrow (List.not_mem_nil row),
        fun i j => ?_, fun i => ?_⟩ <;> simp [mget, List.getD_eq_getElem?_getD]
  · have hbuild : build_distance_matrix hav locations =
        match validateLocations locations with
        | .error e => .error e
        | .ok _ => .ok (fillMatrix hav locations) := by
      rw [build_distance_matrix, if_neg hn]
    constructor
    · rcases validateLocations_cases locations with hv | ⟨e, hv⟩
      · rw [hbuild, hv]
        constructor
        · rintro ⟨e, he⟩
          exact Except.noConfusion he
        · intro hex
          rw [validateLocations_ok_iff] at hv
          obtain ⟨loc, hloc, hmiss⟩ := hex
          rcases hmiss with h | h
          · exact absurd h (hv loc hloc).1
          · exact absurd h (hv loc hloc).2
      · rw [hbuild, hv]
        constructor
        · intro _
          by_contra hcon
          push_neg at hcon
          have : validateLocations locations = .ok () :=
            (validateLocations_ok_iff locations).mpr (fun loc hloc =>
              ⟨(hcon loc hloc).1, (hcon loc hloc).2⟩)
          rw [this] at hv
          exact Except.noConfusion hv
        · intro _
          exact ⟨e, rfl⟩
    · intro M hM
      rw [hbuild] at hM
      rcases validateLocations_cases locations with hv | ⟨e, hv⟩ <;> rw [hv] at hM
      · cases Except.ok.inj hM
        have hinv : MatInv locations.length (fillMatrix hav locations) := by
          unfold fillMatrix
          refine foldl_preserve (MatInv locations.length) _ _ ?_ _
            (matInv_zeroMatrix locations.length)
          intro m i hi hminv
          refine foldl_preserve (MatInv locations.length) _ _ ?_ _ hminv
          intro m' j hj hm'
          have hjr := mem_drop_range hj
          exact matInv_fillPair hm' (List.mem_range.mp hi) hjr.2
            (by omega) _
        exact ⟨hinv.1, hinv.2.1, hinv.2.2.1, hinv.2.2.2⟩
      · exact Except.noConfusion hM

/-- C9 witness: two complete locations produce a 2x2 symmetric zero-diagonal
matrix (for the constant distance function 5). -/
theorem C9_build_distance_matrix_spec_witness :
    build_distance_matrix (fun _ _ _ _ => 5)
        [⟨some 1, some 2⟩, ⟨some 3, some 4⟩] = .ok [[0, 5], [5, 0]] ∧
      ([[0, 5], [5, 0]] : List (List ℚ)).length = 2 ∧
      (∀ i j, mget [[0, 5], [5, 0]] i j = mget [[0, 5], [5, 0]] j i) ∧
      (∀ i, mget [[0, 5], [5, 0]] i i = 0) := by
  have hok : build_distance_matrix (fun _ _ _ _ => (5 : ℚ))
      [⟨some 1, some 2⟩, ⟨some 3, some 4⟩] = .ok [[0, 5], [5, 0]] := by
    with_unfolding_all rfl
  have h := (C9_build_distance_matrix_spec (fun _ _ _ _ => 5)
    [⟨some 1, some 2⟩, ⟨some 3, some 4⟩]).2 _ hok
  exact ⟨hok, h.1, h.2.2.1, h.2.2.2⟩

/-! ## Constraint kernel: `optimization/utils/constraints.py` -/

/-- `check_skill_match(technician_skills, required_skills)`:
`set(required).issubset(set(tech))`. -/
def check_skill_match (technician_skills required_skills : List String) : Bool :=
  required_skills.all (fun s => s ∈ technician_skills)

/-- `check_time_window(arrival_time, window_start, window_end)`: raises if
`window_start > window_end`, otherwise `window_start <= arrival <= window_end`
(inclusive). -/
def check_time_window (arrival_time window_start window_end : ℚ) :
    Except String Bool :=
  if window_start > window_end then
    .error "window_start is after window_end"
  else
    .ok (decide (window_start ≤ arrival_time ∧ arrival_time ≤ window_end))

/-- `check_daily_limit(current_hours, max_hours, additional_hours)`: raises on
any negative argument, otherwise `(current + additional) <= max`. -/
def check_daily_limit (current_hours max_hours additional_hours : ℚ) :
    Except String Bool :=
  if current_hours < 0 ∨ max_hours < 0 ∨ additional_hours < 0 then
    .error "All arguments must be non-negative"
  else
    .ok (decide (current_hours + additional_hours ≤ max_hours))

/-- The boolean decided by `check_daily_limit` on its non-raising domain; the
solvers only call it with non-negative accumulated, maximum and additional
hours. -/
def dailyLimitOk (current_hours max_hours additional_hours : ℚ) : Bool :=
  decide (current_hours + additional_hours ≤ max_hours)

theorem check_daily_limit_eq_ok {c m a : ℚ} (hc : 0 ≤ c) (hm : 0 ≤ m)
    (ha : 0 ≤ a) : check_daily_limit c m a = .ok (dailyLimitOk c m a) := by
  unfold check_daily_limit dailyLimitOk
  rw [if_neg]
  push_neg
  exact ⟨hc, hm, ha⟩

/-! ## Solver framework: `optimization/solvers/base_solver.py`

### Input validation (`BaseSolver.__init__` / `_validate_inputs`)

Validation inspects only the key set of each record dict (plus its `id` for
the error message), so a raw record is modelled as its key list together with
the optional value of its `id` key.  Python error messages interpolate the
offending index, id and missing-key set; the error type carries those data
structurally. -/

def REQUIRED_WORK_ORDER_KEYS : List String :=
  ["id", "property_id", "lat", "lng", "priority", "required_skills",
    "duration_minutes", "time_window_start", "time_window_end"]

def REQUIRED_TECHNICIAN_KEYS : List String :=
  ["id", "name", "skills", "home_lat", "home_lng", "max_hours",
    "shift_start", "shift_end"]

/-- A raw input dict, seen by validation: its keys, and its `id` value when
the `id` key is present. -/
structure RawRecord where
  keys : List String
  id : Option String
deriving DecidableEq

/-- `REQUIRED_KEYS - set(record.keys())`. -/
def missingKeys (required : List String) (r : RawRecord) : List String :=
  required.filter (fun k => !(r.keys.contains k))

/-- The validation failures of `_validate_inputs`, with the data the Python
error messages interpolate. -/
inductive SolverError where
  | emptyWorkOrders : SolverError
  | emptyTechnicians : SolverError
  | missingWorkOrderKeys (idx : ℕ) (id : String) (missing : List String) :
      SolverError
  | missingTechnicianKeys (idx : ℕ) (id : String) (missing : List String) :
      SolverError
  | matrixRowCount (got expected : ℕ) : SolverError
  | matrixRowLength (rowIdx got expected : ℕ) : SolverError
deriving DecidableEq

/-- The `for idx, record in enumerate(...)` missing-key loop, raising at the
first record with a non-empty missing set (`mk` builds the error of the
appropriate entity kind). -/
def checkRecords (required : List String)
    (mk : ℕ → String → List String → SolverError) :
    ℕ → List RawRecord → Except SolverError Unit
  | _, [] => .ok ()
  | idx, r :: rest =>
    if missingKeys required r = [] then checkRecords required mk (idx + 1) rest
    else .error (mk idx (r.id.getD "UNKNOWN") (missingKeys required r))

/-- The ragged-row loop of `_validate_inputs`. -/
def checkRows (expected : ℕ) : ℕ → List (List ℚ) → Except SolverError Unit
  | _, [] => .ok ()
  | idx, row :: rest =>
    if row.length = expected then checkRows expected (idx + 1) rest
    else .error (.matrixRowLength idx row.length expected)

/-- `BaseSolver._validate_inputs`, in source order: empty work orders, empty
technicians, work-order keys, technician keys, matrix row count, ragged
rows. -/
def validate_inputs (work_orders technicians : List RawRecord)
    (distance_matrix : List (List ℚ)) : Except SolverError Unit :=
  if work_orders = [] then .error .emptyWorkOrders
  else if technicians = [] then .error .emptyTechnicians
  else do
    checkRecords REQUIRED_WORK_ORDER_KEYS .missingWorkOrderKeys 0 work_orders
    checkRecords REQUIRED_TECHNICIAN_KEYS .missingTechnicianKeys 0 technicians
    let expected := technicians.length + work_orders.length
    if distance_matrix.length ≠ expected then
      .error (.matrixRowCount distance_matrix.length expected)
    else checkRows expected 0 distance_matrix

/-- `BaseSolver.__init__` runs `_validate_inputs` before any strategy code
can run; `solve` only exists on a constructed solver.  `solver` stands for an
arbitrary strategy body. -/
def solveChecked {R : Type} (work_orders technicians : List RawRecord)
    (distance_matrix : List (List ℚ)) (solver : Unit → R) :
    Except SolverError R := do
  validate_inputs work_orders technicians distance_matrix
  pure (solver ())

theorem checkRecords_ok_iff (required : List String)
    (mk : ℕ → String → List String → SolverError) (idx : ℕ)
    (rs : List RawRecord) :
    checkRecords required mk idx rs = .ok () ↔
      ∀ r ∈ rs, missingKeys required r = [] := by
  induction rs generalizing idx with
  | nil => simp [checkRecords]
  | cons r rest ih =>
    unfold checkRecords
    by_cases h : missingKeys required r = []
    · rw [if_pos h, ih]
      constructor
      · intro hall r' hr'
        rcases List.mem_cons.mp hr' with rfl | hr''
        · exact h
        · exact hall r' hr''
      · intro hall r' hr'
        exact hall r' (List.mem_cons_of_mem _ hr')
    · rw [if_neg h]
      constructor
      · intro hcon; exact Except.noConfusion hcon
      · intro hall
        exact absurd (hall r (List.mem_cons_self ..)) h

theorem checkRecords_error (required : List String)
    (mk : ℕ → String → List String → SolverError) (idx₀ : ℕ)
    (rs : List RawRecord) (e : SolverError)
    (h : checkRecords required mk idx₀ rs = .error e) :
    ∃ k, k < rs.length ∧
      e = mk (idx₀ + k) ((rs.getD k ⟨[], none⟩).id.getD "UNKNOWN")
        (missingKeys required (rs.getD k ⟨[], none⟩)) ∧
      missingKeys required (rs.getD k ⟨[], none⟩) ≠ [] := by
  induction rs generalizing idx₀ with
  | nil => exact absurd h (fun hc => Except.noConfusion hc)
  | cons r rest ih =>
    unfold checkRecords at h
    by_cases hr : missingKeys required r = []
    · rw [if_pos hr] at h
      obtain ⟨k, hk, he, hne⟩ := ih (idx₀ + 1) h
      exact ⟨k + 1, by simpa using Nat.succ_lt_succ hk,
        by simpa [Nat.add_assoc, Nat.add_comm 1 k] using he, by simpa using hne⟩
    · rw [if_neg hr] at h
      refine ⟨0, Nat.succ_pos _, ?_, by simpa using hr⟩
      cases h
      simp

theorem checkRows_ok_iff (expected idx : ℕ) (rows : List (List ℚ)) :
    checkRows expected idx rows = .ok () ↔
      ∀ row ∈ rows, row.length = expected := by
  induction rows generalizing idx with
  | nil => simp [checkRows]
  | cons row rest ih =>
    unfold checkRows
    by_cases h : row.length = expected
    · rw [if_pos h, ih]
      constructor
      · intro hall r' hr'
        rcases List.mem_cons.mp hr' with rfl | hr''
        · exact h
        · exact hall r' hr''
      · intro hall r' hr'
        exact hall r' (List.mem_cons_of_mem _ hr')
    · rw [if_neg h]
      constructor
      · intro hcon; exact Except.noConfusion hcon
      · intro hall
        exact absurd (hall row (List.mem_cons_self ..)) h

theorem except_ok_or_error {E A : Type} (x : Except E A) :
    (∃ a, x = .ok a) ∨ ∃ e, x = .error e := by
  cases x with
  | ok a => exact Or.inl ⟨a, rfl⟩
  | error e => exact Or.inr ⟨e, rfl⟩

theorem except_bind_error {E A B : Type} (e : E) (f : A → Except E B) :
    (Except.error e : Except E A) >>= f = .error e := rfl

theorem except_bind_ok {E A B : Type} (a : A) (f : A → Except E B) :
    (Except.ok a : Except E A) >>= f = f a := rfl

theorem checkRows_error (expected idx : ℕ) (rows : List (List ℚ))
    (e : SolverError) (h : checkRows expected idx rows = .error e) :
    ∃ k g, e = .matrixRowLength k g expected := by
  induction rows generalizing idx with
  | nil => exact absurd h (fun hc => Except.noConfusion hc)
  | cons row rest ih =>
    unfold checkRows at h
    by_cases hr : row.length = expected
    · rw [if_pos hr] at h
      exact ih (idx + 1) h
    · rw [if_neg hr] at h
      exact ⟨idx, row.length, (Except.error.inj h).symm⟩

/-! ### Claim C6 -/

/-- C6: for every solver, validation errors are raised before any solving
work begins and no partial result is ever produced: empty work orders or
technicians raise, a distance matrix with the wrong row count or a ragged
row raises, and a record missing a required attribute raises an error
naming the offending record and the missing attribute(s).  Stated as: (1)
validation succeeds iff none of the error conditions hold; (2) when
validation fails, `solve` returns the validation error for every strategy
body, which is never run; (3)/(4) a missing-key error names the offending
record's index and id and its exact missing-key set. -/
theorem C6_validation_spec (work_orders technicians : List RawRecord)
    (distance_matrix : List (List ℚ)) :
    (validate_inputs work_orders technicians distance_matrix = .ok () ↔
      (work_orders ≠ [] ∧ technicians ≠ [] ∧
        (∀ r ∈ work_orders, missingKeys REQUIRED_WORK_ORDER_KEYS r = []) ∧
        (∀ r ∈ technicians, missingKeys REQUIRED_TECHNICIAN_KEYS r = []) ∧
        distance_matrix.length = technicians.length + work_orders.length ∧
        (∀ row ∈ distance_matrix,
          row.length = technicians.length + work_orders.length)))
    ∧ (∀ (R : Type) (f : Unit → R) (e : SolverError),
        validate_inputs work_orders technicians distance_matrix = .error e →
        solveChecked work_orders technicians distance_matrix f = .error e)
    ∧ (∀ idx i miss,
        validate_inputs work_orders technicians distance_matrix =
            .error (.missingWorkOrderKeys idx i miss) →
          i = (work_orders.getD idx ⟨[], none⟩).id.getD "UNKNOWN" ∧
          miss = missingKeys REQUIRED_WORK_ORDER_KEYS
            (work_orders.getD idx ⟨[], none⟩) ∧
          miss ≠ [])
    ∧ (∀ idx i miss,
        validate_inputs work_orders technicians distance_matrix =
            .error (.missingTechnicianKeys idx i miss) →
          i = (technicians.getD idx ⟨[], none⟩).id.getD "UNKNOWN" ∧
          miss = missingKeys REQUIRED_TECHNICIAN_KEYS
            (technicians.getD idx ⟨[], none⟩) ∧
          miss ≠ []) := by
  have hshape : work_orders ≠ [] → technicians ≠ [] →
      validate_inputs work_orders technicians distance_matrix =
        (checkRecords REQUIRED_WORK_ORDER_KEYS .missingWorkOrderKeys 0
            work_orders >>= fun _ =>
          checkRecords REQUIRED_TECHNICIAN_KEYS .missingTechnicianKeys 0
            technicians >>= fun _ =>
          if distance_matrix.length ≠
              technicians.length + work_orders.length then
            .error (.matrixRowCount distance_matrix.length
              (technicians.length + work_orders.length))
          else checkRows (technicians.length + work_orders.length) 0
            distance_matrix) := by
    intro hw ht
    rw [validate_inputs, if_neg hw, if_neg ht]
  refine ⟨?_, ?_, ?_, ?_⟩
  · by_cases hw : work_orders = []
    · rw [validate_inputs, if_pos hw]
      exact ⟨fun h => Except.noConfusion h, fun h => absurd hw h.1⟩
    · by_cases ht : technicians = []
      · rw [validate_inputs, if_neg hw, if_pos ht]
        exact ⟨fun h => Except.noConfusion h, fun h => absurd ht h.2.1⟩
      · rw [hshape hw ht]
        rcases except_ok_or_error (checkRecords REQUIRED_WORK_ORDER_KEYS
            .missingWorkOrderKeys 0 work_orders) with ⟨a, hA⟩ | ⟨e, hA⟩
        · cases a
          rw [hA, except_bind_ok]
          rcases except_ok_or_error (checkRecords REQUIRED_TECHNICIAN_KEYS
              .missingTechnicianKeys 0 technicians) with ⟨b, hB⟩ | ⟨e, hB⟩
          · cases b
            rw [hB, except_bind_ok]
            by_cases hm : distance_matrix.length =
                technicians.length + work_orders.length
            · rw [if_neg (not_not_intro hm), checkRows_ok_iff]
              constructor
              · intro hall
                exact ⟨hw, ht, (checkRecords_ok_iff _ _ _ _).mp hA,
                  (checkRecords_ok_iff _ _ _ _).mp hB, hm, hall⟩
              · intro hall
                exact hall.2.2.2.2.2
            · rw [if_pos hm]
              exact ⟨fun h => Except.noConfusion h,
                fun h => absurd h.2.2.2.2.1 hm⟩
          · rw [hB, except_bind_error]
            refine ⟨fun h => Except.noConfusion h, fun h => ?_⟩
            rw [(checkRecords_ok_iff _ _ _ _).mpr h.2.2.2.1] at hB
            exact Except.noConfusion hB
        · rw [hA, except_bind_error]
          refine ⟨fun h => Except.noConfusion h, fun h => ?_⟩
          rw [(checkRecords_ok_iff _ _ _ _).mpr h.2.2.1] at hA
          exact Except.noConfusion hA
  · intro R f e h
    rw [solveChecked, h, except_bind_error]
  · intro idx i miss h
    by_cases hw : work_orders = []
    · rw [validate_inputs, if_pos hw] at h
      exact SolverError.noConfusion (Except.error.inj h)
    · by_cases ht : technicians = []
      · rw [validate_inputs, if_neg hw, if_pos ht] at h
        exact SolverError.noConfusion (Except.error.inj h)
      · rw [hshape hw ht] at h
        rcases except_ok_or_error (checkRecords REQUIRED_WORK_ORDER_KEYS
            .missingWorkOrderKeys 0 work_orders) with ⟨a, hA⟩ | ⟨e, hA⟩
        · cases a
          rw [hA, except_bind_ok] at h
          rcases except_ok_or_error (checkRecords REQUIRED_TECHNICIAN_KEYS
              .missingTechnicianKeys 0 technicians) with ⟨b, hB⟩ | ⟨e, hB⟩
          · cases b
            rw [hB, except_bind_ok] at h
            by_cases hm : distance_matrix.length ≠
                technicians.length + work_orders.length
            · rw [if_pos hm] at h
              exact SolverError.noConfusion (Except.error.inj h)
            · rw [if_neg hm] at h
              obtain ⟨k, g, hkg⟩ := checkRows_error _ _ _ _ h
              exact SolverError.noConfusion hkg
          · rw [hB, except_bind_error] at h
            obtain ⟨k, hk, he, hne⟩ := checkRecords_error _ _ _ _ _ hB
            rw [Except.error.inj h] at he
            exact SolverError.noConfusion he
        · rw [hA, except_bind_error] at h
          obtain ⟨k, hk, he, hne⟩ := checkRecords_error _ _ _ _ _ hA
          have heq := (Except.error.inj h).symm.trans he
          injection heq with h1 h2 h3
          rw [Nat.zero_add] at h1
          subst h1
          exact ⟨h2, h3, by rw [h3]; exact hne⟩
  · intro idx i miss h
    by_cases hw : work_orders = []
    · rw [validate_inputs, if_pos hw] at h
      exact SolverError.noConfusion (Except.error.inj h)
    · by_cases ht : technicians = []
      · rw [validate_inputs, if_neg hw, if_pos ht] at h
        exact SolverError.noConfusion (Except.error.inj h)
      · rw [hshape hw ht] at h
        rcases except_ok_or_error (checkRecords REQUIRED_WORK_ORDER_KEYS
            .missingWorkOrderKeys 0 work_orders) with ⟨a, hA⟩ | ⟨e, hA⟩
        · cases a
          rw [hA, except_bind_ok] at h
          rcases except_ok_or_error (checkRecords REQUIRED_TECHNICIAN_KEYS
              .missingTechnicianKeys 0 technicians) with ⟨b, hB⟩ | ⟨e, hB⟩
          · cases b
            rw [hB, except_bind_ok] at h
            by_cases hm : distance_matrix.length ≠
                technicians.length + work_orders.length
            · rw [if_pos hm] at h
              exact SolverError.noConfusion (Except.error.inj h)
            · rw [if_neg hm] at h
              obtain ⟨k, g, hkg⟩ := checkRows_error _ _ _ _ h
              exact SolverError.noConfusion hkg
          · rw [hB, except_bind_error] at h
            obtain ⟨k, hk, he, hne⟩ := checkRecords_error _ _ _ _ _ hB
            have heq := (Except.error.inj h).symm.trans he
            injection heq with h1 h2 h3
            rw [Nat.zero_add] at h1
            subst h1
            exact ⟨h2, h3, h3 ▸ hne⟩
        · rw [hA, except_bind_error] at h
          obtain ⟨k, hk, he, hne⟩ := checkRecords_error _ _ _ _ _ hA
          rw [Except.error.inj h] at he
          exact SolverError.noConfusion he

/-- C6 witness: a work order carrying only `id` and `property_id` is
rejected with an error naming record index 0, id `WO-1` and the seven
missing keys, and no solver body runs. -/
theorem C6_validation_spec_witness :
    validate_inputs [⟨["id", "property_id"], some "WO-1"⟩]
        [⟨REQUIRED_TECHNICIAN_KEYS, some "T-1"⟩] [] =
      .error (.missingWorkOrderKeys 0 "WO-1"
        ["lat", "lng", "priority", "required_skills", "duration_minutes",
          "time_window_start", "time_window_end"]) ∧
    solveChecked [⟨["id", "property_id"], some "WO-1"⟩]
        [⟨REQUIRED_TECHNICIAN_KEYS, some "T-1"⟩] [] (fun _ => (0 : ℚ)) =
      .error (.missingWorkOrderKeys 0 "WO-1"
        ["lat", "lng", "priority", "required_skills", "duration_minutes",
          "time_window_start", "time_window_end"]) ∧
    ("WO-1" = (([⟨["id", "property_id"], some "WO-1"⟩] :
        List RawRecord).getD 0 ⟨[], none⟩).id.getD "UNKNOWN" ∧
      ["lat", "lng", "priority", "required_skills", "duration_minutes",
          "time_window_start", "time_window_end"] =
        missingKeys REQUIRED_WORK_ORDER_KEYS
          (([⟨["id", "property_id"], some "WO-1"⟩] :
            List RawRecord).getD 0 ⟨[], none⟩) ∧
      (["lat", "lng", "priority", "required_skills", "duration_minutes",
          "time_window_start", "time_window_end"] : List String) ≠ []) := by
  have hv : validate_inputs [⟨["id", "property_id"], some "WO-1"⟩]
      [⟨REQUIRED_TECHNICIAN_KEYS, some "T-1"⟩] [] =
      .error (.missingWorkOrderKeys 0 "WO-1"
        ["lat", "lng", "priority", "required_skills", "duration_minutes",
          "time_window_start", "time_window_end"]) := by
    with_unfolding_all rfl
  exact ⟨hv, (C6_validation_spec _ _ _).2.1 _ _ _ hv,
    (C6_validation_spec _ _ _).2.2.1 0 "WO-1" _ hv⟩

/-! ### Claim C7 -/

/-- C7: `estimate_travel_time(distance_miles, speed_mph)` raises an error iff
`distance_miles < 0` or `speed_mph <= 0`, and otherwise returns
`(distance_miles / speed_mph) * 60` rounded to 2 decimal places; 15 miles at
30 mph yields 30 minutes, and the default speed is 30 mph. -/
theorem C7_estimate_travel_time_spec (d s : ℚ) :
    ((∃ e, estimate_travel_time d s = .error e) ↔ (d < 0 ∨ s ≤ 0))
    ∧ (¬(d < 0 ∨ s ≤ 0) →
        estimate_travel_time d s = .ok (roundTo 2 (d / s * 60)))
    ∧ estimate_travel_time 15 30 = .ok 30
    ∧ (∀ x, estimate_travel_time_default x = estimate_travel_time x 30) := by
  refine ⟨⟨?_, ?_⟩, ?_, ?_, fun x => rfl⟩
  · rintro ⟨e, he⟩
    unfold estimate_travel_time at he
    split_ifs at he with h1 h2
    · exact Or.inl h1
    · exact Or.inr h2
  · intro h
    unfold estimate_travel_time
    by_cases h1 : d < 0
    · rw [if_pos h1]; exact ⟨_, rfl⟩
    · have h2 : s ≤ 0 := h.resolve_left h1
      rw [if_neg h1, if_pos h2]; exact ⟨_, rfl⟩
  · intro h
    push_neg at h
    unfold estimate_travel_time
    rw [if_neg (not_lt.mpr h.1), if_neg (not_le.mpr h.2)]
  · with_unfolding_all rfl

/-- C7 witness: the theorem applied at `d = 15`, `s = 30`. -/
theorem C7_estimate_travel_time_spec_witness :
    ¬((15 : ℚ) < 0 ∨ (30 : ℚ) ≤ 0) ∧
      estimate_travel_time 15 30 = .ok (roundTo 2 (15 / 30 * 60)) :=
  ⟨by norm_num, (C7_estimate_travel_time_spec 15 30).2.1 (by norm_num)⟩

/-! ### Claim C8 -/

/-- C8: `check_time_window(arrival, window_start, window_end)` raises an error
iff `window_start > window_end`, and otherwise returns true iff
`window_start <= arrival <= window_end` (inclusive on both ends). -/
theorem C8_check_time_window_spec (a ws we : ℚ) :
    ((∃ e, check_time_window a ws we = .error e) ↔ ws > we)
    ∧ (ws ≤ we →
        (check_time_window a ws we = .ok true ↔ (ws ≤ a ∧ a ≤ we))) := by
  constructor
  · constructor
    · rintro ⟨e, he⟩
      by_contra hcon
      rw [check_time_window, if_neg hcon] at he
      exact Except.noConfusion he
    · intro h
      exact ⟨"window_start is after window_end", by rw [check_time_window, if_pos h]⟩
  · intro h
    rw [check_time_window, if_neg (not_lt.mpr h)]
    constructor
    · intro hok
      have := Except.ok.inj hok
      exact of_decide_eq_true this
    · intro hin
      rw [decide_eq_true hin]

/-- C8 witness: the theorem applied at `arrival = 5`, window `[3, 7]`. -/
theorem C8_check_time_window_spec_witness :
    (3 : ℚ) ≤ 7 ∧ (check_time_window 5 3 7 = .ok true ↔ ((3 : ℚ) ≤ 5 ∧ (5 : ℚ) ≤ 7)) :=
  ⟨by norm_num, (C8_check_time_window_spec 5 3 7).2 (by norm_num)⟩

/-! ## Typed domain model

`BaseSolver` subclasses access validated records by key; those records are
modelled as typed structures with exactly the required attributes of the
data model, all times being rational minutes on an absolute axis. -/

structure WorkOrder where
  id : String
  property_id : String
  lat : ℚ
  lng : ℚ
  priority : String
  required_skills : List String
  duration_minutes : ℚ
  time_window_start : ℚ
  time_window_end : ℚ
deriving DecidableEq

instance : Inhabited WorkOrder :=
  ⟨⟨"", "", 0, 0, "low", [], 0, 0, 0⟩⟩

structure Technician where
  id : String
  name : String
  skills : List String
  home_lat : ℚ
  home_lng : ℚ
  max_hours : ℚ
  shift_start : ℚ
  shift_end : ℚ
deriving DecidableEq

instance : Inhabited Technician :=
  ⟨⟨"", "", [], 0, 0, 8, 0, 0⟩⟩

structure RouteStop where
  work_order_id : String
  property_id : String
  lat : ℚ
  lng : ℚ
  sequence : ℕ
  arrival_time : ℚ
  departure_time : ℚ
  travel_distance : ℚ
  travel_duration : ℚ
deriving DecidableEq

structure TechnicianRoute where
  technician_id : String
  technician_name : String
  stops : List RouteStop
  total_distance : ℚ
  total_duration : ℚ
  total_work_time : ℚ
  utilization_percent : ℚ
deriving DecidableEq

/-- `OptimizationResult` without the solver-specific `metadata` map and the
wall-clock `solve_time_seconds`, which no claim concerns (the genetic
solver's convergence history is modelled separately at its loop). -/
structure OptimizationResult where
  routes : List TechnicianRoute
  total_distance : ℚ
  total_duration : ℚ
  unassigned_orders : List String
  algorithm : String
deriving DecidableEq

/-- The inputs a solver strategy works on after validation, together with the
`avg_speed_mph` configuration value. -/
structure SolverInput where
  work_orders : List WorkOrder
  technicians : List Technician
  distance_matrix : List (List ℚ)
  avg_speed : ℚ

/-- `BaseSolver._get_priority_value`. -/
def getPriorityValue (priority : String) : ℕ :=
  if priority.toLower = "emergency" then 0
  else if priority.toLower = "high" then 1
  else if priority.toLower = "medium" then 2
  else if priority.toLower = "low" then 3
  else 99

/-- Priority sort key of work-order index `w` (`wo.get("priority", "low")`
never falls back on validated records). -/
def prioKey (I : SolverInput) (w : ℕ) : ℕ :=
  getPriorityValue ((I.work_orders.getD w default).priority)

/-- `sorted(range(num_orders), key=priority)`.  Python's `sorted` is a
stable sort; `List.insertionSort` with a `≤` key relation is also stable
(`List.pair_sublist_insertionSort` below), and a stable sort by key is
unique, so both produce the same list. -/
def sortedWoIndices (I : SolverInput) : List ℕ :=
  List.insertionSort (fun i j => prioKey I i ≤ prioKey I j)
    (List.range I.work_orders.length)

/-! ## Greedy solver: `optimization/solvers/greedy_solver.py` -/

/-- Matrix node of work-order index `w`: `wo_idx + num_technicians`. -/
def woNode (I : SolverInput) (w : ℕ) : ℕ := w + I.technicians.length

/-- `self.distance_matrix[current_node][wo_node]`. -/
def candDist (I : SolverInput) (node w : ℕ) : ℚ :=
  mget I.distance_matrix node (woNode I w)

/-- The feasibility tests of the candidate scan in
`GreedySolver._build_technician_route`, in source order: skill match, daily
hour limit on travel + service, the wait-adjusted daily limit when arriving
before the window opens, window end, and shift end.  The arrival after
waiting is `max (time + travel) window_start`. -/
def feasibleCand (I : SolverInput) (tech : Technician) (node : ℕ)
    (time used : ℚ) (w : ℕ) : Bool :=
  let wo := I.work_orders.getD w default
  let dist := candDist I node w
  let travel := travelTime dist I.avg_speed
  let service := wo.duration_minutes
  check_skill_match tech.skills wo.required_skills &&
    dailyLimitOk used tech.max_hours ((travel + service) / 60) &&
    (if time + travel < wo.time_window_start then
      dailyLimitOk used tech.max_hours
        ((travel + (wo.time_window_start - (time + travel)) + service) / 60)
    else true) &&
    decide (max (time + travel) wo.time_window_start ≤ wo.time_window_end) &&
    decide (max (time + travel) wo.time_window_start + service ≤
      tech.shift_end)

/-- One step of the `for wo_idx in sorted_wo_indices` scan: skip assigned or
infeasible candidates, otherwise keep the lexicographically better of the
incumbent `(best_wo_idx, best_dist)` and the candidate — strictly lower
priority value wins, equal priority with strictly smaller distance wins. -/
def scanStep (I : SolverInput) (tech : Technician) (assigned : Finset ℕ)
    (node : ℕ) (time used : ℚ) (acc : Option (ℕ × ℚ)) (w : ℕ) :
    Option (ℕ × ℚ) :=
  if w ∈ assigned then acc
  else if feasibleCand I tech node time used w then
    let dist := candDist I node w
    match acc with
    | none => some (w, dist)
    | some (b, bd) =>
      if prioKey I w < prioKey I b then some (w, dist)
      else if prioKey I w = prioKey I b ∧ dist < bd then some (w, dist)
      else some (b, bd)
  else acc

/-- The full scan over `sorted_wo_indices`, returning
`(best_wo_idx, best_dist)` when a feasible candidate exists. -/
def selectBest (I : SolverInput) (tech : Technician) (assigned : Finset ℕ)
    (node : ℕ) (time used : ℚ) (idxs : List ℕ) : Option (ℕ × ℚ) :=
  idxs.foldl (scanStep I tech assigned node time used) none

/-- The mutable state of `_build_technician_route`'s `while improved`
loop. -/
structure BuildState where
  stops : List RouteStop
  route_distance : ℚ
  route_duration : ℚ
  route_work_time : ℚ
  node : ℕ
  time : ℚ
  used : ℚ
  seq : ℕ
  assigned : Finset ℕ

/-- Committing the winning candidate `b`: append the stop (with rounded
distance and travel minutes), mark assigned, advance the cursor to the
work-order node and the clock to the departure. -/
def commitStop (I : SolverInput) (st : BuildState) (b : ℕ) : BuildState :=
  let wo := I.work_orders.getD b default
  let dist := candDist I st.node b
  let travel := travelTime dist I.avg_speed
  let service := wo.duration_minutes
  let arrival := max (st.time + travel) wo.time_window_start
  let departure := arrival + service
  { stops := st.stops ++ [{
      work_order_id := wo.id
      property_id := wo.property_id
      lat := wo.lat
      lng := wo.lng
      sequence := st.seq
      arrival_time := arrival
      departure_time := departure
      travel_distance := roundTo 2 dist
      travel_duration := roundTo 2 travel }]
    route_distance := st.route_distance + dist
    route_duration := st.route_duration + travel
    route_work_time := st.route_work_time + service
    node := woNode I b
    time := departure
    used := (st.route_duration + travel + (st.route_work_time + service)) / 60
    seq := st.seq + 1
    assigned := insert b st.assigned }

/-- The `while improved` loop.  The fuel argument only bounds the iteration
count: every iteration either stops (no feasible candidate) or assigns a
fresh element of `idxs`, so `idxs.length` iterations always reach the
fixed point the Python `while` loop stops at
(`buildLoop_fuel_independent` below makes this exact). -/
def buildLoop (I : SolverInput) (tech : Technician) (idxs : List ℕ) :
    ℕ → BuildState → BuildState
  | 0, st => st
  | fuel + 1, st =>
    match selectBest I tech st.assigned st.node st.time st.used idxs with
    | none => st
    | some (b, _) => buildLoop I tech idxs fuel (commitStop I st b)

/-- `GreedySolver._build_technician_route`: returns the finished route and
the enlarged assigned set. -/
def build_technician_route (I : SolverInput) (v_idx : ℕ)
    (idxs : List ℕ) (assigned : Finset ℕ) : TechnicianRoute × Finset ℕ :=
  let tech := I.technicians.getD v_idx default
  let st := buildLoop I tech idxs idxs.length
    { stops := [], route_distance := 0, route_duration := 0
      route_work_time := 0, node := v_idx, time := tech.shift_start
      used := 0, seq := 0, assigned := assigned }
  let total_hours := (st.route_duration + st.route_work_time) / 60
  let utilization :=
    if tech.max_hours > 0 then
      min 100 (total_hours / tech.max_hours * 100)
    else 0
  (⟨tech.id, tech.name, st.stops, roundTo 2 st.route_distance,
    roundTo 2 st.route_duration, roundTo 2 st.route_work_time,
    roundTo 1 utilization⟩, st.assigned)

/-- `GreedySolver._solve_impl`'s technician loop, threading the shared
assigned set and accumulating the rounded route totals. -/
def greedyTechLoop (I : SolverInput) (idxs : List ℕ) :
    List ℕ → Finset ℕ →
      List TechnicianRoute × Finset ℕ × ℚ × ℚ
  | [], assigned => ([], assigned, 0, 0)
  | v :: vs, assigned =>
    let (route, assigned') := build_technician_route I v idxs assigned
    let (routes, assignedF, td, tt) := greedyTechLoop I idxs vs assigned'
    (route :: routes, assignedF, route.total_distance + td,
      route.total_duration + tt)

/-- `GreedySolver._solve_impl`. -/
def greedySolve (I : SolverInput) : OptimizationResult :=
  let n := I.work_orders.length
  let idxs := sortedWoIndices I
  let (routes, assigned, total_distance, total_duration) :=
    greedyTechLoop I idxs (List.range I.technicians.length) ∅
  let all_order_ids := I.work_orders.map (·.id)
  let unassigned := ((List.range n).filter (fun i => i ∉ assigned)).map
    (fun i => all_order_ids.getD i "")
  { routes := routes
    total_distance := roundTo 2 total_distance
    total_duration := roundTo 2 total_duration
    unassigned_orders := unassigned
    algorithm := "GreedySolver" }

/-! ## Genetic solver: `optimization/solvers/genetic_solver.py`

The random draws (initialization, tournament, crossover cut points and coin
flips, mutation) are abstracted: properties of `_decode_solution` and
`_evaluate_fitness` are proved for arbitrary chromosomes, and the evolution
loop for arbitrary offspring fitness values, which covers every seed. -/

/-- Python string `sorted`: strings compare lexicographically by code
points, i.e. by the lex order of their character lists. -/
def sLe (a b : String) : Prop := a.data ≤ b.data

instance : DecidableRel sLe :=
  fun a b => inferInstanceAs (Decidable (a.data ≤ b.data))

instance : IsTotal String sLe := ⟨fun a b => le_total a.data b.data⟩

instance : IsTrans String sLe := ⟨fun _ _ _ h1 h2 => le_trans h1 h2⟩

/-- `sorted(...)` on a collection of strings (a stable sort; insertion sort
produces the same ascending list). -/
def pySortedStrings (l : List String) : List String := List.insertionSort sLe l

/-- Penalty weights of the fitness function. -/
def SKILL_VIOLATION_PENALTY : ℚ := 500
def TIME_WINDOW_VIOLATION_PENALTY : ℚ := 200
def CAPACITY_VIOLATION_PENALTY : ℚ := 300

/-- A candidate solution; the cached `fitness` field is modelled by the
`evaluate_fitness` function. -/
structure Chromosome where
  assignments : List ℕ
  order_sequence : List ℕ
deriving DecidableEq

/-- `tech_orders[v]`: walking `order_sequence` in order and appending each
work order to its assignee's list yields, for technician `v`, exactly the
subsequence of `order_sequence` whose assignment is `v`. -/
def techOrders (c : Chromosome) (v : ℕ) : List ℕ :=
  c.order_sequence.filter (fun w => c.assignments.getD w 0 = v)

/-! ### `_evaluate_fitness` -/

/-- The per-technician accumulator of `_evaluate_fitness`: cursor node,
clock, used hours, and the two global accumulators. -/
structure FitState where
  node : ℕ
  time : ℚ
  used : ℚ
  total_distance : ℚ
  penalty : ℚ

/-- One work order of the fitness loop: skill penalty, travel distance,
waiting arrival, lateness penalty (+200 per hour over the window end),
shift-overrun penalty (+300 per hour past shift end), then advance. -/
def fitnessStep (I : SolverInput) (tech : Technician) (st : FitState)
    (w : ℕ) : FitState :=
  let wo := I.work_orders.getD w default
  let skill_pen : ℚ :=
    if check_skill_match tech.skills wo.required_skills then 0
    else SKILL_VIOLATION_PENALTY
  let dist := candDist I st.node w
  let travel := travelTime dist I.avg_speed
  let service := wo.duration_minutes
  let arrival := max (st.time + travel) wo.time_window_start
  let tw_pen : ℚ :=
    if arrival > wo.time_window_end then
      TIME_WINDOW_VIOLATION_PENALTY * ((arrival - wo.time_window_end) / 60)
    else 0
  let newTime := arrival + service
  let shift_pen : ℚ :=
    if newTime > tech.shift_end then
      CAPACITY_VIOLATION_PENALTY * ((newTime - tech.shift_end) / 60)
    else 0
  { node := woNode I w
    time := newTime
    used := st.used + (travel + service) / 60
    total_distance := st.total_distance + dist
    penalty := st.penalty + skill_pen + tw_pen + shift_pen }

/-- One technician of the fitness loop, ending with the daily-hour-limit
penalty (+300 per hour of `used_hours` above `max_hours`). -/
def fitnessTech (I : SolverInput) (c : Chromosome) (acc : ℚ × ℚ) (v : ℕ) :
    ℚ × ℚ :=
  let tech := I.technicians.getD v default
  let st := (techOrders c v).foldl (fitnessStep I tech)
    { node := v, time := tech.shift_start, used := 0
      total_distance := acc.1, penalty := acc.2 }
  (st.total_distance,
    st.penalty +
      if st.used > tech.max_hours then
        CAPACITY_VIOLATION_PENALTY * (st.used - tech.max_hours)
      else 0)

/-- `GeneticSolver._evaluate_fitness`. -/
def evaluate_fitness (I : SolverInput) (c : Chromosome) : ℚ :=
  let tp := (List.range I.technicians.length).foldl (fitnessTech I c) (0, 0)
  tp.1 + tp.2

/-! ### `_decode_solution` -/

/-- The per-technician accumulator of `_decode_solution`. -/
structure DecodeState where
  stops : List RouteStop
  route_distance : ℚ
  route_duration : ℚ
  route_work_time : ℚ
  node : ℕ
  time : ℚ
  seq : ℕ

/-- One work order of the final decode: skip on skill violation, window-end
violation, shift overrun, or daily-hour overrun; otherwise append a stop and
advance (early arrivals wait until the window start). -/
def decodeStep (I : SolverInput) (tech : Technician) (st : DecodeState)
    (w : ℕ) : DecodeState :=
  let wo := I.work_orders.getD w default
  if check_skill_match tech.skills wo.required_skills then
    let dist := candDist I st.node w
    let travel := travelTime dist I.avg_speed
    let service := wo.duration_minutes
    let arrival := max (st.time + travel) wo.time_window_start
    if arrival > wo.time_window_end then st
    else
      let departure := arrival + service
      if departure > tech.shift_end then st
      else if (st.route_duration + st.route_work_time + travel + service) /
          60 > tech.max_hours then st
      else
        { stops := st.stops ++ [{
            work_order_id := wo.id
            property_id := wo.property_id
            lat := wo.lat
            lng := wo.lng
            sequence := st.seq
            arrival_time := arrival
            departure_time := departure
            travel_distance := roundTo 2 dist
            travel_duration := roundTo 2 travel }]
          route_distance := st.route_distance + dist
          route_duration := st.route_duration + travel
          route_work_time := st.route_work_time + service
          node := woNode I w
          time := departure
          seq := st.seq + 1 }
  else st

/-- The decoded route of one technician. -/
def decodeTech (I : SolverInput) (c : Chromosome) (v : ℕ) :
    TechnicianRoute × ℚ × ℚ :=
  let tech := I.technicians.getD v default
  let st := (techOrders c v).foldl (decodeStep I tech)
    { stops := [], route_distance := 0, route_duration := 0
      route_work_time := 0, node := v, time := tech.shift_start, seq := 0 }
  let total_hours := (st.route_duration + st.route_work_time) / 60
  let utilization :=
    if tech.max_hours > 0 then
      min 100 (total_hours / tech.max_hours * 100)
    else 0
  (⟨tech.id, tech.name, st.stops, roundTo 2 st.route_distance,
      roundTo 2 st.route_duration, roundTo 2 st.route_work_time,
      roundTo 1 utilization⟩,
    st.route_distance, st.route_duration)

/-- `GeneticSolver._decode_solution` (the unrounded per-route distance and
duration feed the global totals, and `assigned_ids` is exactly the set of
ids of the emitted stops). -/
def decode_solution (I : SolverInput) (c : Chromosome) : OptimizationResult :=
  let decoded := (List.range I.technicians.length).map (decodeTech I c)
  let routes := decoded.map (·.1)
  let total_distance := (decoded.map (·.2.1)).sum
  let total_duration := (decoded.map (·.2.2)).sum
  let assigned_ids :=
    (routes.map (fun r => r.stops.map (·.work_order_id))).flatten
  let unassigned := pySortedStrings
    (((I.work_orders.map (·.id)).dedup).filter
      (fun x => decide (x ∉ assigned_ids)))
  { routes := routes
    total_distance := roundTo 2 total_distance
    total_duration := roundTo 2 total_duration
    unassigned_orders := unassigned
    algorithm := "GeneticSolver" }

/-! ### The evolution loop (for the convergence claim)

Only fitness values matter to the recorded history: a population is its
ascending fitness list, one generation keeps the first `elite_size` values
(deep copies preserve fitness), appends the evaluated offspring, and sorts
ascending; `population[0].fitness` is recorded after each generation. -/

/-- One generation: elites plus offspring, sorted ascending by fitness. -/
def nextGeneration (elite_size : ℕ) (pop children : List ℚ) : List ℚ :=
  List.insertionSort (· ≤ ·) (pop.take elite_size ++ children)

/-- The recorded convergence history: the initial sorted population's best,
then the best after each generation, for an arbitrary stream of per-
generation offspring fitness lists. -/
def convergenceHistory (elite_size : ℕ) :
    List ℚ → List (List ℚ) → List ℚ
  | pop, [] => [pop.headD 0]
  | pop, children :: rest =>
    pop.headD 0 ::
      convergenceHistory elite_size (nextGeneration elite_size pop children)
        rest

/-! ## CP-VRP solver: `optimization/solvers/vrp_solver.py` (structural)

The CP search itself happens in OR-Tools; only the no-solution result
construction is in this repository's control flow. -/

/-- The `if not solution` result of `VRPSolver._solve_impl`: every work
order id, in input order. -/
def vrpNoSolutionResult (I : SolverInput) : OptimizationResult :=
  { routes := []
    total_distance := 0
    total_duration := 0
    unassigned_orders := I.work_orders.map (·.id)
    algorithm := "VRPSolver" }

/-- The unassigned list of `VRPSolver._parse_solution`, for an abstract
solver assignment given as the set of visited work-order ids:
`sorted(all_order_ids - assigned_orders)`. -/
def vrpParseUnassigned (I : SolverInput) (assigned_orders : List String) :
    List String :=
  pySortedStrings
    (((I.work_orders.map (·.id)).dedup).filter
      (fun x => decide (x ∉ assigned_orders)))

/-! ## Characterization of the greedy candidate scan -/

/-- A work-order index is a candidate at a scan state: unassigned and
feasible. -/
def Cand (I : SolverInput) (tech : Technician) (A : Finset ℕ) (node : ℕ)
    (time used : ℚ) (w : ℕ) : Prop :=
  w ∉ A ∧ feasibleCand I tech node time used w = true

/-- `b` strictly precedes `c` in the scan's lexicographic order at cursor
`node`: strictly more urgent, or equally urgent and strictly nearer. -/
def BeatsStrict (I : SolverInput) (node : ℕ) (b c : ℕ) : Prop :=
  prioKey I b < prioKey I c ∨
    (prioKey I b = prioKey I c ∧ candDist I node b < candDist I node c)

/-- `b` weakly precedes `c` in the scan's lexicographic order. -/
def BeatsLe (I : SolverInput) (node : ℕ) (b c : ℕ) : Prop :=
  prioKey I b < prioKey I c ∨
    (prioKey I b = prioKey I c ∧ candDist I node b ≤ candDist I node c)

theorem BeatsStrict.beatsLe {I : SolverInput} {node : ℕ} {b c : ℕ}
    (h : BeatsStrict I node b c) : BeatsLe I node b c := by
  rcases h with h | ⟨h1, h2⟩
  · exact Or.inl h
  · exact Or.inr ⟨h1, le_of_lt h2⟩

theorem BeatsStrict.trans_beatsLe {I : SolverInput} {node : ℕ} {b c e : ℕ}
    (h1 : BeatsStrict I node b c) (h2 : BeatsLe I node c e) :
    BeatsStrict I node b e := by
  rcases h1 with h1 | ⟨h1a, h1b⟩ <;> rcases h2 with h2 | ⟨h2a, h2b⟩
  · exact Or.inl (h1.trans h2)
  · exact Or.inl (h2a ▸ h1)
  · exact Or.inl (h1a ▸ h2)
  · exact Or.inr ⟨h1a.trans h2a, lt_of_lt_of_le h1b h2b⟩

/-- The invariant of the candidate scan after processing prefix `p`: either
nothing was feasible yet, or the incumbent is a candidate occurring in `p`,
carries its own distance, strictly beats every earlier candidate and weakly
beats every candidate seen so far. -/
def ScanInv (I : SolverInput) (tech : Technician) (A : Finset ℕ) (node : ℕ)
    (time used : ℚ) (p : List ℕ) (acc : Option (ℕ × ℚ)) : Prop :=
  (acc = none ∧ ∀ c ∈ p, ¬Cand I tech A node time used c) ∨
  (∃ b p1 p2, acc = some (b, candDist I node b) ∧ p = p1 ++ b :: p2 ∧
    Cand I tech A node time used b ∧
    (∀ c ∈ p1, Cand I tech A node time used c → BeatsStrict I node b c) ∧
    (∀ c ∈ p, Cand I tech A node time used c → BeatsLe I node b c))

theorem scanStep_inv (I : SolverInput) (tech : Technician) (A : Finset ℕ)
    (node : ℕ) (time used : ℚ) (p : List ℕ) (acc : Option (ℕ × ℚ)) (x : ℕ)
    (h : ScanInv I tech A node time used p acc) :
    ScanInv I tech A node time used (p ++ [x])
      (scanStep I tech A node time used acc x) := by
  unfold scanStep
  by_cases hA : x ∈ A
  · rw [if_pos hA]
    rcases h with ⟨hacc, hnone⟩ | ⟨b, p1, p2, hacc, hsplit, hcand, hstrict, hle⟩
    · refine Or.inl ⟨hacc, fun c hc => ?_⟩
      rcases List.mem_append.mp hc with hc | hc
      · exact hnone c hc
      · rw [List.mem_singleton.mp hc]
        exact fun hcand => hcand.1 hA
    · refine Or.inr ⟨b, p1, p2 ++ [x], hacc, by rw [hsplit]; simp, hcand,
        hstrict, fun c hc hcc => ?_⟩
      rcases List.mem_append.mp hc with hc | hc
      · exact hle c hc hcc
      · rw [List.mem_singleton.mp hc] at hcc
        exact absurd hA hcc.1
  · rw [if_neg hA]
    by_cases hF : feasibleCand I tech node time used x = true
    · rw [if_pos hF]
      dsimp only
      have hcx : Cand I tech A node time used x := ⟨hA, hF⟩
      rcases h with ⟨hacc, hnone⟩ | ⟨b, p1, p2, hacc, hsplit, hcand, hstrict, hle⟩
      · subst hacc
        refine Or.inr ⟨x, p, [], rfl, rfl, hcx, fun c hc hcc =>
          absurd hcc (hnone c hc), fun c hc hcc => ?_⟩
        rcases List.mem_append.mp hc with hc | hc
        · exact absurd hcc (hnone c hc)
        · rw [List.mem_singleton.mp hc]
          exact Or.inr ⟨rfl, le_refl _⟩
      · subst hacc
        show ScanInv I tech A node time used (p ++ [x])
          (if prioKey I x < prioKey I b then some (x, candDist I node x)
          else if prioKey I x = prioKey I b ∧
              candDist I node x < candDist I node b then
            some (x, candDist I node x)
          else some (b, candDist I node b))
        by_cases h1 : prioKey I x < prioKey I b
        · rw [if_pos h1]
          have hxb : BeatsStrict I node x b := Or.inl h1
          refine Or.inr ⟨x, p, [], rfl, rfl, hcx, fun c hc hcc =>
            hxb.trans_beatsLe (hle c hc hcc), fun c hc hcc => ?_⟩
          rcases List.mem_append.mp hc with hc | hc
          · exact (hxb.trans_beatsLe (hle c hc hcc)).beatsLe
          · rw [List.mem_singleton.mp hc]
            exact Or.inr ⟨rfl, le_refl _⟩
        · rw [if_neg h1]
          by_cases h2 : prioKey I x = prioKey I b ∧
              candDist I node x < candDist I node b
          · rw [if_pos h2]
            have hxb : BeatsStrict I node x b := Or.inr h2
            refine Or.inr ⟨x, p, [], rfl, rfl, hcx, fun c hc hcc =>
              hxb.trans_beatsLe (hle c hc hcc), fun c hc hcc => ?_⟩
            rcases List.mem_append.mp hc with hc | hc
            · exact (hxb.trans_beatsLe (hle c hc hcc)).beatsLe
            · rw [List.mem_singleton.mp hc]
              exact Or.inr ⟨rfl, le_refl _⟩
          · rw [if_neg h2]
            refine Or.inr ⟨b, p1, p2 ++ [x], rfl, by rw [hsplit]; simp,
              hcand, hstrict, fun c hc hcc => ?_⟩
            rcases List.mem_append.mp hc with hc | hc
            · exact hle c hc hcc
            · rw [List.mem_singleton.mp hc]
              rcases Nat.lt_or_ge (prioKey I b) (prioKey I x) with hp | hp
              · exact Or.inl hp
              · have hpe : prioKey I b = prioKey I x :=
                  Nat.le_antisymm (Nat.le_of_not_lt h1) hp
                refine Or.inr ⟨hpe, ?_⟩
                by_contra hd
                exact h2 ⟨hpe.symm, lt_of_not_le hd⟩
    · rw [if_neg hF]
      rcases h with ⟨hacc, hnone⟩ | ⟨b, p1, p2, hacc, hsplit, hcand, hstrict, hle⟩
      · refine Or.inl ⟨hacc, fun c hc => ?_⟩
        rcases List.mem_append.mp hc with hc | hc
        · exact hnone c hc
        · rw [List.mem_singleton.mp hc]
          exact fun hcand => hF hcand.2
      · refine Or.inr ⟨b, p1, p2 ++ [x], hacc, by rw [hsplit]; simp, hcand,
          hstrict, fun c hc hcc => ?_⟩
        rcases List.mem_append.mp hc with hc | hc
        · exact hle c hc hcc
        · rw [List.mem_singleton.mp hc] at hcc
          exact absurd hcc.2 hF

theorem scan_foldl_inv (I : SolverInput) (tech : Technician) (A : Finset ℕ)
    (node : ℕ) (time used : ℚ) :
    ∀ (l p : List ℕ) (acc : Option (ℕ × ℚ)),
      ScanInv I tech A node time used p acc →
      ScanInv I tech A node time used (p ++ l)
        (l.foldl (scanStep I tech A node time used) acc) := by
  intro l
  induction l with
  | nil => intro p acc h; simpa using h
  | cons x xs ih =>
    intro p acc h
    have h1 := scanStep_inv I tech A node time used p acc x h
    have h2 := ih (p ++ [x]) _ h1
    rw [List.append_assoc] at h2
    simpa using h2

theorem selectBest_none (I : SolverInput) (tech : Technician) (A : Finset ℕ)
    (node : ℕ) (time used : ℚ) (l : List ℕ)
    (h : selectBest I tech A node time used l = none) :
    ∀ c ∈ l, ¬Cand I tech A node time used c := by
  have hinv := scan_foldl_inv I tech A node time used l [] none
    (Or.inl ⟨rfl, fun c hc => absurd hc (List.not_mem_nil c)⟩)
  rw [List.nil_append] at hinv
  unfold selectBest at h
  rw [h] at hinv
  rcases hinv with ⟨_, hnone⟩ | ⟨b, p1, p2, hacc, _⟩
  · exact hnone
  · exact absurd hacc (fun hc => Option.noConfusion hc)

theorem selectBest_some (I : SolverInput) (tech : Technician) (A : Finset ℕ)
    (node : ℕ) (time used : ℚ) (l : List ℕ) (b : ℕ) (d : ℚ)
    (h : selectBest I tech A node time used l = some (b, d)) :
    d = candDist I node b ∧ Cand I tech A node time used b ∧
      (∃ l1 l2, l = l1 ++ b :: l2 ∧
        (∀ c ∈ l1, Cand I tech A node time used c → BeatsStrict I node b c)) ∧
      (∀ c ∈ l, Cand I tech A node time used c → BeatsLe I node b c) := by
  have hinv := scan_foldl_inv I tech A node time used l [] none
    (Or.inl ⟨rfl, fun c hc => absurd hc (List.not_mem_nil c)⟩)
  rw [List.nil_append] at hinv
  unfold selectBest at h
  rw [h] at hinv
  rcases hinv with ⟨hacc, _⟩ | ⟨b', p1, p2, hacc, hsplit, hcand, hstrict, hle⟩
  · exact absurd hacc (fun hc => Option.noConfusion hc)
  · obtain ⟨hb, hd⟩ := Prod.mk.injEq .. ▸ Option.some.inj hacc
    subst hb
    exact ⟨hd.symm ▸ rfl, hcand, ⟨p1, p2, hsplit, hstrict⟩, hle⟩

/-! ## Facts about the priority-sorted index list -/

theorem mem_sortedWoIndices {I : SolverInput} {w : ℕ} :
    w ∈ sortedWoIndices I ↔ w < I.work_orders.length := by
  rw [sortedWoIndices,
    (List.perm_insertionSort (fun i j => prioKey I i ≤ prioKey I j)
      (List.range I.work_orders.length)).mem_iff, List.mem_range]

theorem nodup_sortedWoIndices (I : SolverInput) :
    (sortedWoIndices I).Nodup :=
  ((List.perm_insertionSort _ _).nodup_iff).mpr
    (List.nodup_range I.work_orders.length)

theorem pair_sublist_range {c b n : ℕ} (h1 : c < b) (h2 : b < n) :
    List.Sublist [c, b] (List.range n) := by
  induction n with
  | zero => exact absurd h2 (Nat.not_lt_zero b)
  | succ m ih =>
    rw [List.range_succ]
    rcases Nat.lt_or_ge b m with hb | hb
    · exact (ih hb).trans (List.sublist_append_left ..)
    · have : b = m := Nat.le_antisymm (Nat.lt_succ_iff.mp h2) hb
      subst this
      exact List.Sublist.append
        (List.singleton_sublist.mpr (List.mem_range.mpr h1))
        (List.Sublist.refl [b])

theorem sublist_pair_antisymm {x y : ℕ} :
    ∀ {l : List ℕ}, l.Nodup → List.Sublist [x, y] l → List.Sublist [y, x] l →
      x = y := by
  intro l
  induction l with
  | nil => intro _ h1 _; exact absurd h1 (by simp)
  | cons a t ih =>
    intro hnd h1 h2
    have hat : a ∉ t := (List.nodup_cons.mp hnd).1
    have hndt : t.Nodup := (List.nodup_cons.mp hnd).2
    cases h1 with
    | cons _ h1' =>
      cases h2 with
      | cons _ h2' => exact ih hndt h1' h2'
      | cons₂ h2' => exact absurd (h1'.subset (by simp)) hat
    | cons₂ h1' =>
      cases h2 with
      | cons _ h2' => exact absurd (h2'.subset (by simp)) hat
      | cons₂ h2' => rfl

/-- Stability of the priority sort: among equal priority keys, the sorted
scan order is the input (index) order. -/
theorem sorted_tier_lt (I : SolverInput) {b c : ℕ}
    (hbc : List.Sublist [b, c] (sortedWoIndices I))
    (hpe : prioKey I b = prioKey I c) (hne : b ≠ c) : b < c := by
  by_contra hlt
  have hcb : c < b :=
    Nat.lt_of_le_of_ne (Nat.le_of_not_lt hlt) (Ne.symm hne)
  have hbn : b < I.work_orders.length :=
    mem_sortedWoIndices.mp (hbc.subset (by simp))
  have hcbs : List.Sublist [c, b] (sortedWoIndices I) :=
    List.pair_sublist_insertionSort (le_of_eq hpe.symm)
      (pair_sublist_range hcb hbn)
  exact hne (sublist_pair_antisymm (nodup_sortedWoIndices I) hbc hcbs)

/-! ### Claim C3 -/

/-- C3: in every iteration of the greedy route construction, the committed
work order (the one `buildLoop` hands to `commitStop`) is an unassigned
feasible candidate that is minimal under the lexicographic order (priority
key ascending, then distance from the current node ascending) among all
unassigned feasible candidates; a candidate with a strictly lower priority
key always wins regardless of distance, within a priority tier the nearest
wins, and on exact (priority, distance) ties the smallest input index (first
in input order) is committed. -/
theorem C3_greedy_selection (I : SolverInput) (tech : Technician)
    (st : BuildState) (fuel : ℕ) (b : ℕ) (d : ℚ)
    (hsel : selectBest I tech st.assigned st.node st.time st.used
      (sortedWoIndices I) = some (b, d)) :
    buildLoop I tech (sortedWoIndices I) (fuel + 1) st =
      buildLoop I tech (sortedWoIndices I) fuel (commitStop I st b) ∧
    b < I.work_orders.length ∧ b ∉ st.assigned ∧
    feasibleCand I tech st.node st.time st.used b = true ∧
    (∀ c, c < I.work_orders.length → c ∉ st.assigned →
      feasibleCand I tech st.node st.time st.used c = true →
      prioKey I b < prioKey I c ∨
        (prioKey I b = prioKey I c ∧
          candDist I st.node b ≤ candDist I st.node c)) ∧
    (∀ c, c < I.work_orders.length → c ∉ st.assigned →
      feasibleCand I tech st.node st.time st.used c = true →
      prioKey I b = prioKey I c →
      candDist I st.node b = candDist I st.node c → c ≠ b → b < c) := by
  obtain ⟨hd, hcand, ⟨l1, l2, hsplit, hstrict⟩, hle⟩ :=
    selectBest_some I tech st.assigned st.node st.time st.used
      (sortedWoIndices I) b d hsel
  have hmem : b ∈ sortedWoIndices I := by
    rw [hsplit]
    exact List.mem_append_right _ (List.mem_cons_self ..)
  refine ⟨by rw [buildLoop, hsel], mem_sortedWoIndices.mp hmem, hcand.1,
    hcand.2, ?_, ?_⟩
  · intro c hcn hcA hcF
    exact hle c (mem_sortedWoIndices.mpr hcn) ⟨hcA, hcF⟩
  · intro c hcn hcA hcF hpe hde hne
    have hcmem : c ∈ sortedWoIndices I := mem_sortedWoIndices.mpr hcn
    have hcc : Cand I tech st.assigned st.node st.time st.used c := ⟨hcA, hcF⟩
    have hcl2 : c ∈ l2 := by
      rw [hsplit] at hcmem
      rcases List.mem_append.mp hcmem with hc1 | hc2
      · exact absurd (hstrict c hc1 hcc) (by
          rw [BeatsStrict]
          push_neg
          exact ⟨by rw [hpe], fun _ => by rw [hde]⟩)
      · rcases List.mem_cons.mp hc2 with rfl | hc2'
        · exact absurd rfl hne
        · exact hc2'
    have hsub : List.Sublist [b, c] (sortedWoIndices I) := by
      rw [hsplit]
      exact ((List.cons_sublist_cons ..).mpr
        (List.singleton_sublist.mpr hcl2)).trans
        (List.sublist_append_right l1 _)
    exact sorted_tier_lt I hsub hpe (Ne.symm hne)

/-- C3 witness: with one technician at node 0, a far emergency order
(index 1) and a near low order (index 0), the scan commits the emergency
order. -/
theorem C3_greedy_selection_witness :
    selectBest
      ⟨[⟨"b", "P1", 0, 0, "low", [], 30, 0, 480⟩,
        ⟨"a", "P2", 0, 0, "emergency", [], 30, 0, 480⟩],
        [⟨"T1", "Tech", [], 0, 0, 8, 0, 480⟩],
        [[0, 1, 20], [1, 0, 3], [20, 3, 0]], 30⟩
      ⟨"T1", "Tech", [], 0, 0, 8, 0, 480⟩ ∅ 0 0 0
      (sortedWoIndices
        ⟨[⟨"b", "P1", 0, 0, "low", [], 30, 0, 480⟩,
          ⟨"a", "P2", 0, 0, "emergency", [], 30, 0, 480⟩],
          [⟨"T1", "Tech", [], 0, 0, 8, 0, 480⟩],
          [[0, 1, 20], [1, 0, 3], [20, 3, 0]], 30⟩) = some (1, 20) ∧
    (1 : ℕ) < 2 ∧
    feasibleCand
      ⟨[⟨"b", "P1", 0, 0, "low", [], 30, 0, 480⟩,
        ⟨"a", "P2", 0, 0, "emergency", [], 30, 0, 480⟩],
        [⟨"T1", "Tech", [], 0, 0, 8, 0, 480⟩],
        [[0, 1, 20], [1, 0, 3], [20, 3, 0]], 30⟩
      ⟨"T1", "Tech", [], 0, 0, 8, 0, 480⟩ 0 0 0 1 = true := by
  have hsel : selectBest
      ⟨[⟨"b", "P1", 0, 0, "low", [], 30, 0, 480⟩,
        ⟨"a", "P2", 0, 0, "emergency", [], 30, 0, 480⟩],
        [⟨"T1", "Tech", [], 0, 0, 8, 0, 480⟩],
        [[0, 1, 20], [1, 0, 3], [20, 3, 0]], 30⟩
      ⟨"T1", "Tech", [], 0, 0, 8, 0, 480⟩ ∅ 0 0 0
      (sortedWoIndices
        ⟨[⟨"b", "P1", 0, 0, "low", [], 30, 0, 480⟩,
          ⟨"a", "P2", 0, 0, "emergency", [], 30, 0, 480⟩],
          [⟨"T1", "Tech", [], 0, 0, 8, 0, 480⟩],
          [[0, 1, 20], [1, 0, 3], [20, 3, 0]], 30⟩) = some (1, 20) := by
    with_unfolding_all rfl
  have h := C3_greedy_selection
    ⟨[⟨"b", "P1", 0, 0, "low", [], 30, 0, 480⟩,
      ⟨"a", "P2", 0, 0, "emergency", [], 30, 0, 480⟩],
      [⟨"T1", "Tech", [], 0, 0, 8, 0, 480⟩],
      [[0, 1, 20], [1, 0, 3], [20, 3, 0]], 30⟩
    ⟨"T1", "Tech", [], 0, 0, 8, 0, 480⟩
    ⟨[], 0, 0, 0, 0, 0, 0, 0, ∅⟩ 0 1 20 hsel
  exact ⟨hsel, h.2.1, h.2.2.2.1⟩

/-! ## Bookkeeping invariants of the greedy loop -/

theorem selectBest_cand {I : SolverInput} {tech : Technician}
    {A : Finset ℕ} {node : ℕ} {time used : ℚ} {l : List ℕ} {b : ℕ} {d : ℚ}
    (h : selectBest I tech A node time used l = some (b, d)) :
    b ∈ l ∧ b ∉ A ∧ feasibleCand I tech node time used b = true := by
  obtain ⟨_, hcand, ⟨l1, l2, hsplit, _⟩, _⟩ :=
    selectBest_some I tech A node time used l b d h
  exact ⟨by rw [hsplit]; exact List.mem_append_right _ (List.mem_cons_self ..),
    hcand.1, hcand.2⟩

/-- Each run of the `while improved` loop assigns a list of fresh, distinct
indices drawn from the scanned list, and appends exactly their stops (in
commit order) to the route. -/
theorem buildLoop_picks (I : SolverInput) (tech : Technician)
    (idxs : List ℕ) :
    ∀ (fuel : ℕ) (st : BuildState),
      ∃ picks : List ℕ,
        (buildLoop I tech idxs fuel st).assigned =
          st.assigned ∪ picks.toFinset ∧
        picks.Nodup ∧
        (∀ p ∈ picks, p ∈ idxs ∧ p ∉ st.assigned) ∧
        (buildLoop I tech idxs fuel st).stops.map (·.work_order_id) =
          st.stops.map (·.work_order_id) ++
            picks.map (fun w => (I.work_orders.getD w default).id) := by
  intro fuel
  induction fuel with
  | zero =>
    intro st
    exact ⟨[], by simp [buildLoop], List.nodup_nil, fun p hp => absurd hp
      (List.not_mem_nil p), by simp [buildLoop]⟩
  | succ n ih =>
    intro st
    cases hsel : selectBest I tech st.assigned st.node st.time st.used idxs
      with
    | none =>
      refine ⟨[], ?_, List.nodup_nil, fun p hp => absurd hp
        (List.not_mem_nil p), ?_⟩ <;> rw [buildLoop, hsel] <;> simp
    | some bd =>
      obtain ⟨b, d⟩ := bd
      obtain ⟨hbl, hbA, _⟩ := selectBest_cand hsel
      obtain ⟨picks', ha', hnd', hmem', hst'⟩ := ih (commitStop I st b)
      have hcommitA : (commitStop I st b).assigned = insert b st.assigned :=
        rfl
      have hcommitS : (commitStop I st b).stops.map (·.work_order_id) =
          st.stops.map (·.work_order_id) ++
            [(I.work_orders.getD b default).id] := by
        simp [commitStop]
      refine ⟨b :: picks', ?_, ?_, ?_, ?_⟩
      · rw [buildLoop, hsel, ha', hcommitA, List.toFinset_cons,
          Finset.insert_union, Finset.union_insert]
      · exact List.nodup_cons.mpr ⟨fun hb =>
          (hmem' b hb).2 (hcommitA ▸ Finset.mem_insert_self b st.assigned),
          hnd'⟩
      · intro p hp
        rcases List.mem_cons.mp hp with rfl | hp'
        · exact ⟨hbl, hbA⟩
        · refine ⟨(hmem' p hp').1, fun hpA => (hmem' p hp').2 ?_⟩
          rw [hcommitA]
          exact Finset.mem_insert_of_mem hpA
      · rw [buildLoop, hsel, hst', hcommitS]
        simp

/-- The temporal state invariant of the greedy loop: committed hours track
the route sums and never exceed the budget, and every emitted stop respects
its window and the shift end. -/
def StopOK (I : SolverInput) (tech : Technician) (s : RouteStop) : Prop :=
  ∃ w, w < I.work_orders.length ∧
    s.work_order_id = (I.work_orders.getD w default).id ∧
    (I.work_orders.getD w default).time_window_start ≤ s.arrival_time ∧
    s.arrival_time ≤ (I.work_orders.getD w default).time_window_end ∧
    s.departure_time ≤ tech.shift_end ∧
    s.departure_time =
      s.arrival_time + (I.work_orders.getD w default).duration_minutes

def TemporalInv (I : SolverInput) (tech : Technician) (st : BuildState) :
    Prop :=
  st.used = (st.route_duration + st.route_work_time) / 60 ∧
  st.used ≤ tech.max_hours ∧
  ∀ s ∈ st.stops, StopOK I tech s

theorem feasibleCand_parts {I : SolverInput} {tech : Technician} {node : ℕ}
    {time used : ℚ} {w : ℕ}
    (h : feasibleCand I tech node time used w = true) :
    check_skill_match tech.skills
        (I.work_orders.getD w default).required_skills = true ∧
    used + (travelTime (candDist I node w) I.avg_speed +
        (I.work_orders.getD w default).duration_minutes) / 60 ≤
      tech.max_hours ∧
    max (time + travelTime (candDist I node w) I.avg_speed)
        (I.work_orders.getD w default).time_window_start ≤
      (I.work_orders.getD w default).time_window_end ∧
    max (time + travelTime (candDist I node w) I.avg_speed)
        (I.work_orders.getD w default).time_window_start +
        (I.work_orders.getD w default).duration_minutes ≤
      tech.shift_end := by
  unfold feasibleCand at h
  simp only [Bool.and_eq_true, decide_eq_true_eq] at h
  refine ⟨h.1.1.1.1, ?_, h.1.2, h.2⟩
  have h2 := h.1.1.1.2
  unfold dailyLimitOk at h2
  exact of_decide_eq_true h2

theorem commitStop_temporal {I : SolverInput} {tech : Technician}
    {st : BuildState} (hinv : TemporalInv I tech st) {b : ℕ}
    (hbn : b < I.work_orders.length)
    (hF : feasibleCand I tech st.node st.time st.used b = true) :
    TemporalInv I tech (commitStop I st b) := by
  obtain ⟨heq, hle, hstops⟩ := hinv
  obtain ⟨_, hdaily, hwin, hshift⟩ := feasibleCand_parts hF
  refine ⟨?_, ?_, ?_⟩
  · show (st.route_duration + travelTime (candDist I st.node b) I.avg_speed +
        (st.route_work_time +
          (I.work_orders.getD b default).duration_minutes)) / 60 =
      ((st.route_duration + travelTime (candDist I st.node b) I.avg_speed) +
        (st.route_work_time +
          (I.work_orders.getD b default).duration_minutes)) / 60
    ring
  · show (st.route_duration + travelTime (candDist I st.node b) I.avg_speed +
        (st.route_work_time +
          (I.work_orders.getD b default).duration_minutes)) / 60 ≤ _
    calc (st.route_duration + travelTime (candDist I st.node b) I.avg_speed +
          (st.route_work_time +
            (I.work_orders.getD b default).duration_minutes)) / 60
        = st.used + (travelTime (candDist I st.node b) I.avg_speed +
            (I.work_orders.getD b default).duration_minutes) / 60 := by
          rw [heq]; ring
      _ ≤ tech.max_hours := hdaily
  · intro s hs
    rcases List.mem_append.mp hs with hs | hs
    · exact hstops s hs
    · rw [List.mem_singleton.mp hs]
      exact ⟨b, hbn, rfl, le_max_right .., hwin, hshift, rfl⟩

theorem buildLoop_temporal (I : SolverInput) (tech : Technician)
    (idxs : List ℕ) (hidx : ∀ w ∈ idxs, w < I.work_orders.length) :
    ∀ (fuel : ℕ) (st : BuildState), TemporalInv I tech st →
      TemporalInv I tech (buildLoop I tech idxs fuel st) := by
  intro fuel
  induction fuel with
  | zero => intro st h; exact h
  | succ n ih =>
    intro st h
    cases hsel : selectBest I tech st.assigned st.node st.time st.used idxs
      with
    | none => rw [buildLoop, hsel]; exact h
    | some bd =>
      obtain ⟨b, d⟩ := bd
      obtain ⟨hbl, _, hF⟩ := selectBest_cand hsel
      rw [buildLoop, hsel]
      exact ih _ (commitStop_temporal h (hidx b hbl) hF)

theorem roundTo_le (n : ℕ) (q : ℚ) :
    roundTo n q ≤ q + 1 / (2 * 10 ^ n) := by
  rw [roundTo_eq_round]
  have h := (abs_le.mp (abs_sub_round (q * 10 ^ n))).1
  have hpow : (0 : ℚ) < 10 ^ n := by positivity
  rw [div_le_iff₀ hpow]
  calc ((round (q * 10 ^ n) : ℤ) : ℚ) ≤ q * 10 ^ n + 1 / 2 := by linarith
    _ = (q + 1 / (2 * 10 ^ n)) * 10 ^ n := by field_simp; ring

theorem le_roundTo (n : ℕ) (q : ℚ) :
    q - 1 / (2 * 10 ^ n) ≤ roundTo n q := by
  rw [roundTo_eq_round]
  have h := (abs_le.mp (abs_sub_round (q * 10 ^ n))).2
  have hpow : (0 : ℚ) < 10 ^ n := by positivity
  rw [le_div_iff₀ hpow]
  calc (q - 1 / (2 * 10 ^ n)) * 10 ^ n = q * 10 ^ n - 1 / 2 := by
        field_simp; ring
    _ ≤ ((round (q * 10 ^ n) : ℤ) : ℚ) := by linarith

/-- Rounding the two route totals to 2 decimals moves the hour total by at
most 0.01 h. -/
theorem round_sum_div_bound {rd rwt mh : ℚ} (h : (rd + rwt) / 60 ≤ mh) :
    (roundTo 2 rd + roundTo 2 rwt) / 60 ≤ mh + 1 / 100 := by
  have h1 := roundTo_le 2 rd
  have h2 := roundTo_le 2 rwt
  have e : (1 : ℚ) / (2 * 10 ^ 2) = 1 / 200 := by norm_num
  rw [e] at h1 h2
  linarith

theorem getD_mem_of_lt' {α : Type} (l : List α) (w : ℕ) (d : α)
    (h : w < l.length) : l.getD w d ∈ l := by
  simp [List.getD_eq_getElem?_getD, List.getElem?_eq_getElem h]

/-- Per-route guarantees of the greedy construction: stops respect windows
and the shift, and the rounded route totals stay within the hour budget up
to the 0.01 h rounding tolerance. -/
theorem build_technician_route_spec (I : SolverInput) (v : ℕ)
    (assigned : Finset ℕ)
    (hmax : 0 ≤ (I.technicians.getD v default).max_hours) :
    (∀ s ∈ (build_technician_route I v (sortedWoIndices I) assigned).1.stops,
      StopOK I (I.technicians.getD v default) s) ∧
    ((build_technician_route I v (sortedWoIndices I) assigned).1.total_duration
        + (build_technician_route I v
          (sortedWoIndices I) assigned).1.total_work_time) / 60 ≤
      (I.technicians.getD v default).max_hours + 1 / 100 := by
  have hinv := buildLoop_temporal I (I.technicians.getD v default)
    (sortedWoIndices I) (fun w hw => mem_sortedWoIndices.mp hw)
    (sortedWoIndices I).length
    { stops := [], route_distance := 0, route_duration := 0
      route_work_time := 0, node := v
      time := (I.technicians.getD v default).shift_start
      used := 0, seq := 0, assigned := assigned }
    ⟨by norm_num, hmax, by simp⟩
  obtain ⟨heq, hle, hstops⟩ := hinv
  constructor
  · intro s hs
    exact hstops s hs
  · rw [heq] at hle
    exact round_sum_div_bound hle

instance : Inhabited TechnicianRoute := ⟨⟨"", "", [], 0, 0, 0, 0⟩⟩

/-- Every route the greedy technician loop emits is the route built for one
of the scanned technician indices (with the assigned set it saw). -/
theorem greedyTechLoop_routes_mem (I : SolverInput) (idxs : List ℕ) :
    ∀ (vs : List ℕ) (assigned : Finset ℕ) (r : TechnicianRoute),
      r ∈ (greedyTechLoop I idxs vs assigned).1 →
      ∃ v ∈ vs, ∃ A, r = (build_technician_route I v idxs A).1 := by
  intro vs
  induction vs with
  | nil => intro assigned r hr; exact absurd hr (List.not_mem_nil r)
  | cons v rest ih =>
    intro assigned r hr
    rw [greedyTechLoop] at hr
    rcases List.mem_cons.mp hr with hr | hr
    · exact ⟨v, List.mem_cons_self .., assigned, hr⟩
    · obtain ⟨v', hv', A, hA⟩ := ih _ r hr
      exact ⟨v', List.mem_cons_of_mem _ hv', A, hA⟩

/-- The concatenated assignments of the greedy technician loop: distinct
fresh indices, whose ids in commit order are exactly the stop ids of the
emitted routes. -/
theorem greedyTechLoop_picks (I : SolverInput) (idxs : List ℕ) :
    ∀ (vs : List ℕ) (assigned : Finset ℕ),
      ∃ picks : List ℕ,
        (greedyTechLoop I idxs vs assigned).2.1 =
          assigned ∪ picks.toFinset ∧
        picks.Nodup ∧
        (∀ p ∈ picks, p ∈ idxs ∧ p ∉ assigned) ∧
        ((greedyTechLoop I idxs vs assigned).1.map
          (fun r => r.stops.map (·.work_order_id))).flatten =
          picks.map (fun w => (I.work_orders.getD w default).id) := by
  intro vs
  induction vs with
  | nil =>
    intro assigned
    exact ⟨[], by simp [greedyTechLoop], List.nodup_nil,
      fun p hp => absurd hp (List.not_mem_nil p), by simp [greedyTechLoop]⟩
  | cons v rest ih =>
    intro assigned
    obtain ⟨p1, ha1, hnd1, hmem1, hst1⟩ := buildLoop_picks I
      (I.technicians.getD v default) idxs idxs.length
      { stops := [], route_distance := 0, route_duration := 0
        route_work_time := 0, node := v
        time := (I.technicians.getD v default).shift_start
        used := 0, seq := 0, assigned := assigned }
    obtain ⟨p2, ha2, hnd2, hmem2, hst2⟩ := ih (assigned ∪ p1.toFinset)
    have hroute : (build_technician_route I v idxs assigned).2 =
        assigned ∪ p1.toFinset := ha1
    have hstops : (build_technician_route I v idxs assigned).1.stops.map
        (·.work_order_id) =
        p1.map (fun w => (I.work_orders.getD w default).id) := by
      have := hst1
      rw [List.map_nil, List.nil_append] at this
      exact this
    refine ⟨p1 ++ p2, ?_, ?_, ?_, ?_⟩
    · show (greedyTechLoop I idxs rest
        (build_technician_route I v idxs assigned).2).2.1 = _
      rw [hroute, ha2, List.toFinset_append, Finset.union_assoc]
    · rw [List.nodup_append]
      refine ⟨hnd1, hnd2, fun a ha1' ha2' => ?_⟩
      have := (hmem2 a ha2').2
      rw [Finset.mem_union] at this
      push_neg at this
      exact absurd (List.mem_toFinset.mpr ha1') this.2
    · intro p hp
      rcases List.mem_append.mp hp with hp | hp
      · exact hmem1 p hp
      · refine ⟨(hmem2 p hp).1, fun hpA => ?_⟩
        have := (hmem2 p hp).2
        rw [Finset.mem_union] at this
        push_neg at this
        exact this.1 hpA
    · show ((((build_technician_route I v idxs assigned).1 ::
          (greedyTechLoop I idxs rest
            (build_technician_route I v idxs assigned).2).1).map
          (fun r => r.stops.map (·.work_order_id))).flatten) = _
      rw [List.map_cons, List.flatten_cons, hstops, hroute, hst2,
        List.map_append]

theorem map_getD_range {α : Type} (l : List α) (d : α) :
    (List.range l.length).map (fun i => l.getD i d) = l := by
  induction l with
  | nil => rfl
  | cons a t ih =>
    rw [List.length_cons, List.range_succ_eq_map, List.map_cons,
      List.map_map]
    have hcomp : ((fun i => (a :: t).getD i d) ∘ Nat.succ) =
        fun i => t.getD i d := by
      funext i
      rfl
    rw [hcomp, ih]
    rfl

/-! ### Claim C5 -/

/-- A valid input (two orders, one technician, 3x3 matrix, distinct ids)
whose orders cannot be served: the required skill is absent.  The input
lists the ids out of lexicographic order. -/
def unsortableInput : SolverInput :=
  { work_orders := [
      { id := "b", property_id := "P1", lat := 0, lng := 0, priority := "low"
        required_skills := ["x"], duration_minutes := 30
        time_window_start := 0, time_window_end := 100 },
      { id := "a", property_id := "P2", lat := 0, lng := 0, priority := "low"
        required_skills := ["x"], duration_minutes := 30
        time_window_start := 0, time_window_end := 100 }]
    technicians := [
      { id := "T1", name := "Tech", skills := [], home_lat := 0, home_lng := 0
        max_hours := 8, shift_start := 0, shift_end := 480 }]
    distance_matrix := [[0, 1, 2], [1, 0, 3], [2, 3, 0]]
    avg_speed := 30 }

/-- C5 counterexample: on `unsortableInput` (a valid input), GreedySolver
returns `unassigned_orders = ["b", "a"]`, which is not sorted
lexicographically, and the CP-VRP no-solution result does the same — so the
claim that every solver's unassigned list is sorted is false. -/
theorem C5_counterexample :
    (greedySolve unsortableInput).unassigned_orders = ["b", "a"] ∧
    ¬List.Sorted sLe (greedySolve unsortableInput).unassigned_orders ∧
    (vrpNoSolutionResult unsortableInput).unassigned_orders = ["b", "a"] ∧
    ¬List.Sorted sLe (vrpNoSolutionResult unsortableInput).unassigned_orders
    := by
  have hg : (greedySolve unsortableInput).unassigned_orders = ["b", "a"] := by
    with_unfolding_all rfl
  have hv : (vrpNoSolutionResult unsortableInput).unassigned_orders =
      ["b", "a"] := rfl
  refine ⟨hg, ?_, hv, ?_⟩
  · rw [hg]
    decide
  · rw [hv]
    decide

/-- C5 amended: the unassigned list is sorted lexicographically for
GeneticSolver's decode and for VRPSolver's solution parse; GreedySolver and
VRPSolver's no-solution result instead emit unassigned ids in input order
(the greedy list is a sublist of the input id list, the no-solution list is
exactly the input id list). -/
theorem C5_amended_ordering :
    (∀ (I : SolverInput) (c : Chromosome),
      List.Sorted sLe (decode_solution I c).unassigned_orders) ∧
    (∀ (I : SolverInput) (assigned : List String),
      List.Sorted sLe (vrpParseUnassigned I assigned)) ∧
    (∀ I : SolverInput,
      List.Sublist (greedySolve I).unassigned_orders
        (I.work_orders.map (·.id))) ∧
    (∀ I : SolverInput,
      (vrpNoSolutionResult I).unassigned_orders =
        I.work_orders.map (·.id)) := by
  refine ⟨fun I c => List.sorted_insertionSort sLe _,
    fun I assigned => List.sorted_insertionSort sLe _, fun I => ?_,
    fun I => rfl⟩
  show List.Sublist (((List.range I.work_orders.length).filter _).map
    (fun i => (I.work_orders.map (·.id)).getD i ""))
    (I.work_orders.map (·.id))
  refine (List.Sublist.map _ (List.filter_sublist _)).trans ?_
  have hlen : I.work_orders.length = (I.work_orders.map (·.id)).length := by
    rw [List.length_map]
  rw [hlen, map_getD_range]

/-! ## Bookkeeping invariants of the genetic decode -/

/-- A chromosome as maintained by the genetic operators: the sequence is a
permutation of the work-order indices and every assignment is a valid
technician index. -/
def ChromWF (I : SolverInput) (c : Chromosome) : Prop :=
  c.order_sequence.Perm (List.range I.work_orders.length) ∧
  c.assignments.length = I.work_orders.length ∧
  ∀ a ∈ c.assignments, a < I.technicians.length

theorem decodeStep_ids (I : SolverInput) (tech : Technician)
    (st : DecodeState) (w : ℕ) :
    (decodeStep I tech st w).stops.map (·.work_order_id) =
        st.stops.map (·.work_order_id) ∨
      (decodeStep I tech st w).stops.map (·.work_order_id) =
        st.stops.map (·.work_order_id) ++
          [(I.work_orders.getD w default).id] := by
  unfold decodeStep
  dsimp only
  split_ifs <;> simp

theorem decode_fold_ids (I : SolverInput) (tech : Technician) :
    ∀ (ws : List ℕ) (st : DecodeState),
      ∃ sub : List ℕ, List.Sublist sub ws ∧
        (ws.foldl (decodeStep I tech) st).stops.map (·.work_order_id) =
          st.stops.map (·.work_order_id) ++
            sub.map (fun w => (I.work_orders.getD w default).id) := by
  intro ws
  induction ws with
  | nil => exact fun st => ⟨[], List.nil_sublist [], by simp⟩
  | cons w rest ih =>
    intro st
    obtain ⟨sub', hsub', hids'⟩ := ih (decodeStep I tech st w)
    rcases decodeStep_ids I tech st w with h | h
    · exact ⟨sub', List.Sublist.cons w hsub', by
        rw [List.foldl_cons, hids', h]⟩
    · refine ⟨w :: sub', List.Sublist.cons₂ w hsub', ?_⟩
      rw [List.foldl_cons, hids', h, List.map_cons, List.append_assoc,
        List.singleton_append]

theorem decodeStep_temporal (I : SolverInput) (tech : Technician)
    (st : DecodeState) (w : ℕ) (hw : w < I.work_orders.length)
    (hinv : (st.route_duration + st.route_work_time) / 60 ≤ tech.max_hours ∧
      ∀ s ∈ st.stops, StopOK I tech s) :
    ((decodeStep I tech st w).route_duration +
        (decodeStep I tech st w).route_work_time) / 60 ≤ tech.max_hours ∧
      ∀ s ∈ (decodeStep I tech st w).stops, StopOK I tech s := by
  obtain ⟨hhours, hstops⟩ := hinv
  unfold decodeStep
  dsimp only
  split_ifs with h1 h2 h3 h4
  · exact ⟨hhours, hstops⟩
  · exact ⟨hhours, hstops⟩
  · exact ⟨hhours, hstops⟩
  · refine ⟨?_, ?_⟩
    · show (st.route_duration +
          travelTime (candDist I st.node w) I.avg_speed +
          (st.route_work_time +
            (I.work_orders.getD w default).duration_minutes)) / 60 ≤ _
      have h4' := not_lt.mp h4
      calc (st.route_duration +
            travelTime (candDist I st.node w) I.avg_speed +
            (st.route_work_time +
              (I.work_orders.getD w default).duration_minutes)) / 60
          = (st.route_duration + st.route_work_time +
              travelTime (candDist I st.node w) I.avg_speed +
              (I.work_orders.getD w default).duration_minutes) / 60 := by
            ring
        _ ≤ tech.max_hours := h4'
    · intro s hs
      rcases List.mem_append.mp hs with hs | hs
      · exact hstops s hs
      · rw [List.mem_singleton.mp hs]
        exact ⟨w, hw, rfl, le_max_right .., not_lt.mp h2, not_lt.mp h3, rfl⟩
  · exact ⟨hhours, hstops⟩

theorem decode_fold_temporal (I : SolverInput) (tech : Technician)
    (ws : List ℕ) (hws : ∀ w ∈ ws, w < I.work_orders.length) :
    ∀ st : DecodeState,
      ((st.route_duration + st.route_work_time) / 60 ≤ tech.max_hours ∧
        ∀ s ∈ st.stops, StopOK I tech s) →
      ((ws.foldl (decodeStep I tech) st).route_duration +
          (ws.foldl (decodeStep I tech) st).route_work_time) / 60 ≤
        tech.max_hours ∧
      ∀ s ∈ (ws.foldl (decodeStep I tech) st).stops, StopOK I tech s := by
  induction ws with
  | nil => exact fun st h => h
  | cons w rest ih =>
    intro st h
    rw [List.foldl_cons]
    exact ih (fun x hx => hws x (List.mem_cons_of_mem _ hx)) _
      (decodeStep_temporal I tech st w
        (hws w (List.mem_cons_self ..)) h)

/-- `(getD i).id` read through the mapped id list. -/
theorem ids_getD (I : SolverInput) {i : ℕ} (hi : i < I.work_orders.length) :
    (I.work_orders.map (·.id)).getD i "" =
      (I.work_orders.getD i default).id := by
  have hi' : i < (I.work_orders.map (·.id)).length := by
    rw [List.length_map]; exact hi
  rw [List.getD_eq_getElem?_getD, List.getElem?_eq_getElem hi',
    List.getD_eq_getElem?_getD, List.getElem?_eq_getElem hi]
  simp

/-- Distinct input ids make the index-to-id map injective below `n`. -/
theorem id_inj (I : SolverInput)
    (hids : (I.work_orders.map (·.id)).Nodup) {i j : ℕ}
    (hi : i < I.work_orders.length) (hj : j < I.work_orders.length)
    (h : (I.work_orders.getD i default).id =
      (I.work_orders.getD j default).id) : i = j := by
  have hi' : i < (I.work_orders.map (·.id)).length := by
    rw [List.length_map]; exact hi
  have hj' : j < (I.work_orders.map (·.id)).length := by
    rw [List.length_map]; exact hj
  refine (@List.Nodup.getElem_inj_iff _ _ hids _ hi' _ hj').mp ?_
  rw [List.getElem_map, List.getElem_map]
  have e1 : I.work_orders[i] = I.work_orders.getD i default := by
    rw [List.getD_eq_getElem?_getD, List.getElem?_eq_getElem hi]
    rfl
  have e2 : I.work_orders[j] = I.work_orders.getD j default := by
    rw [List.getD_eq_getElem?_getD, List.getElem?_eq_getElem hj]
    rfl
  rw [e1, e2]
  exact h

theorem techOrders_lt (I : SolverInput) {c : Chromosome}
    (hwf : ChromWF I c) (v : ℕ) :
    ∀ w ∈ techOrders c v, w < I.work_orders.length := by
  intro w hw
  have hmem : w ∈ c.order_sequence := List.mem_of_mem_filter hw
  exact List.mem_range.mp (hwf.1.subset hmem)

theorem techOrders_nodup (I : SolverInput) {c : Chromosome}
    (hwf : ChromWF I c) (v : ℕ) : (techOrders c v).Nodup :=
  List.Nodup.filter _
    (hwf.1.nodup_iff.mpr (List.nodup_range I.work_orders.length))

theorem techOrders_assign (c : Chromosome) (v : ℕ) :
    ∀ w ∈ techOrders c v, c.assignments.getD w 0 = v := by
  intro w hw
  unfold techOrders at hw
  exact of_decide_eq_true (List.mem_filter.mp hw).2

theorem decodeTech_ids (I : SolverInput) (c : Chromosome) (v : ℕ) :
    ∃ sub : List ℕ, List.Sublist sub (techOrders c v) ∧
      (decodeTech I c v).1.stops.map (·.work_order_id) =
        sub.map (fun w => (I.work_orders.getD w default).id) := by
  obtain ⟨sub, hsub, hids⟩ := decode_fold_ids I (I.technicians.getD v default)
    (techOrders c v)
    { stops := [], route_distance := 0, route_duration := 0
      route_work_time := 0, node := v
      time := (I.technicians.getD v default).shift_start, seq := 0 }
  rw [List.map_nil, List.nil_append] at hids
  exact ⟨sub, hsub, hids⟩

theorem decodeTech_temporal (I : SolverInput) (c : Chromosome) (v : ℕ)
    (hmax : 0 ≤ (I.technicians.getD v default).max_hours)
    (hlt : ∀ w ∈ techOrders c v, w < I.work_orders.length) :
    (∀ s ∈ (decodeTech I c v).1.stops,
      StopOK I (I.technicians.getD v default) s) ∧
    ((decodeTech I c v).1.total_duration +
        (decodeTech I c v).1.total_work_time) / 60 ≤
      (I.technicians.getD v default).max_hours + 1 / 100 := by
  have h := decode_fold_temporal I (I.technicians.getD v default)
    (techOrders c v) hlt
    { stops := [], route_distance := 0, route_duration := 0
      route_work_time := 0, node := v
      time := (I.technicians.getD v default).shift_start, seq := 0 }
    ⟨by simpa using hmax, by simp⟩
  exact ⟨h.2, round_sum_div_bound h.1⟩

/-! ### Claim C2 -/

/-- The greedy technician loop emits exactly one route per technician
index, in order. -/
theorem greedyTechLoop_length (I : SolverInput) (idxs : List ℕ) :
    ∀ (vs : List ℕ) (assigned : Finset ℕ),
      (greedyTechLoop I idxs vs assigned).1.length = vs.length := by
  intro vs
  induction vs with
  | nil => intro assigned; rfl
  | cons v rest ih =>
    intro assigned
    show ((build_technician_route I v idxs assigned).1 ::
        (greedyTechLoop I idxs rest
          (build_technician_route I v idxs assigned).2).1).length =
      (v :: rest).length
    rw [List.length_cons, List.length_cons, ih]

/-- The route at position `k` of the greedy technician loop is the route
built for the technician index at position `k`, from some intermediate
assigned set. -/
theorem greedyTechLoop_getD (I : SolverInput) (idxs : List ℕ) :
    ∀ (vs : List ℕ) (assigned : Finset ℕ) (k : ℕ), k < vs.length →
      ∃ A, (greedyTechLoop I idxs vs assigned).1.getD k default =
        (build_technician_route I (vs.getD k 0) idxs A).1 := by
  intro vs
  induction vs with
  | nil => intro assigned k hk; exact absurd hk (by simp)
  | cons v rest ih =>
    intro assigned k hk
    have hshape : (greedyTechLoop I idxs (v :: rest) assigned).1 =
        (build_technician_route I v idxs assigned).1 ::
          (greedyTechLoop I idxs rest
            (build_technician_route I v idxs assigned).2).1 := rfl
    rw [hshape]
    cases k with
    | zero => exact ⟨assigned, rfl⟩
    | succ k =>
      have hk' : k < rest.length := Nat.lt_of_succ_lt_succ hk
      obtain ⟨A, hA⟩ :=
        ih (build_technician_route I v idxs assigned).2 k hk'
      exact ⟨A, hA⟩

/-- The per-route feasibility bundle of claim C2, stated against a given
technician: the route carries that technician's id, every stop's arrival
lies in its work order's time window, every departure (arrival plus
service) is at or before that technician's shift end, and the route's
cumulative travel-plus-service hours stay within that technician's
max-hours up to ε = 0.01 h of rounding. -/
def RouteTechOK (I : SolverInput) (r : TechnicianRoute) (t : Technician) :
    Prop :=
  r.technician_id = t.id ∧
  (∀ s ∈ r.stops, ∃ wo ∈ I.work_orders,
    s.work_order_id = wo.id ∧
    wo.time_window_start ≤ s.arrival_time ∧
    s.arrival_time ≤ wo.time_window_end ∧
    s.departure_time ≤ t.shift_end ∧
    s.departure_time = s.arrival_time + wo.duration_minutes) ∧
  (r.total_duration + r.total_work_time) / 60 ≤ t.max_hours + 1 / 100

/-- C2: GreedySolver and GeneticSolver's final decode emit one route per
technician, in input order, and the route at each index `v` is temporally
feasible for its own technician, the one at the same index `v`, whose id
the route carries: every arrival lies in the work order's window (early
arrivals wait, so arrival is at or after the window start, and at or
before the window end), every departure (arrival plus service) is at or
before that technician's shift end, and the route's cumulative
travel-plus-service hours stay within that technician's max-hours up to
ε = 0.01 h of rounding. -/
theorem C2_temporal_feasibility (I : SolverInput)
    (hmax : ∀ t ∈ I.technicians, 0 ≤ t.max_hours) :
    ((greedySolve I).routes.length = I.technicians.length ∧
      ∀ v, v < I.technicians.length →
        RouteTechOK I ((greedySolve I).routes.getD v default)
          (I.technicians.getD v default)) ∧
    (∀ c : Chromosome, ChromWF I c →
      (decode_solution I c).routes.length = I.technicians.length ∧
      ∀ v, v < I.technicians.length →
        RouteTechOK I ((decode_solution I c).routes.getD v default)
          (I.technicians.getD v default)) := by
  have hgr : (greedySolve I).routes =
      (greedyTechLoop I (sortedWoIndices I)
        (List.range I.technicians.length) ∅).1 := rfl
  constructor
  · constructor
    · rw [hgr, greedyTechLoop_length, List.length_range]
    · intro v hv
      rw [hgr]
      obtain ⟨A, hA⟩ := greedyTechLoop_getD I (sortedWoIndices I)
        (List.range I.technicians.length) ∅ v
        (by rwa [List.length_range])
      have hv0 : (List.range I.technicians.length).getD v 0 = v := by
        rw [List.getD_eq_getElem?_getD, List.getElem?_range hv]
        rfl
      rw [hv0] at hA
      rw [hA]
      have htech : I.technicians.getD v default ∈ I.technicians :=
        getD_mem_of_lt' _ v default hv
      obtain ⟨hstops, hhours⟩ := build_technician_route_spec I v A
        (hmax _ htech)
      refine ⟨rfl, ?_, hhours⟩
      intro s hs
      obtain ⟨w, hw, hid, h1, h2, h3, h4⟩ := hstops s hs
      exact ⟨I.work_orders.getD w default,
        getD_mem_of_lt' _ w default hw, hid, h1, h2, h3, h4⟩
  · intro c hwf
    have hroutes : (decode_solution I c).routes =
        ((List.range I.technicians.length).map (decodeTech I c)).map
          (·.1) := rfl
    constructor
    · rw [hroutes, List.length_map, List.length_map, List.length_range]
    · intro v hv
      have hvlen : v < (((List.range I.technicians.length).map
          (decodeTech I c)).map (·.1)).length := by
        rw [List.length_map, List.length_map, List.length_range]
        exact hv
      have hget : (((List.range I.technicians.length).map
            (decodeTech I c)).map (·.1)).getD v default =
          (decodeTech I c v).1 := by
        rw [List.getD_eq_getElem?_getD, List.getElem?_eq_getElem hvlen]
        simp [List.getElem_map]
      rw [hroutes, hget]
      have htech : I.technicians.getD v default ∈ I.technicians :=
        getD_mem_of_lt' _ v default hv
      obtain ⟨hstops, hhours⟩ := decodeTech_temporal I c v (hmax _ htech)
        (techOrders_lt I hwf v)
      refine ⟨rfl, ?_, hhours⟩
      intro s hs
      obtain ⟨w, hw, hid, h1, h2, h3, h4⟩ := hstops s hs
      exact ⟨I.work_orders.getD w default,
        getD_mem_of_lt' _ w default hw, hid, h1, h2, h3, h4⟩

/-- A serviceable concrete instance: one skilled technician, two orders in
wide windows. -/
def feasibleInput : SolverInput :=
  { work_orders := [
      { id := "b", property_id := "P1", lat := 0, lng := 0, priority := "low"
        required_skills := [], duration_minutes := 30
        time_window_start := 0, time_window_end := 480 },
      { id := "a", property_id := "P2", lat := 0, lng := 0
        priority := "emergency", required_skills := [], duration_minutes := 30
        time_window_start := 0, time_window_end := 480 }]
    technicians := [
      { id := "T1", name := "Tech", skills := ["s"], home_lat := 0
        home_lng := 0, max_hours := 8, shift_start := 0, shift_end := 480 }]
    distance_matrix := [[0, 1, 2], [1, 0, 3], [2, 3, 0]]
    avg_speed := 30 }

/-- C2 witness: the theorem applied to `feasibleInput`, whose technician
budget is non-negative. -/
theorem C2_temporal_feasibility_witness :
    (∀ t ∈ feasibleInput.technicians, 0 ≤ t.max_hours) ∧
    ((greedySolve feasibleInput).routes.length =
        feasibleInput.technicians.length ∧
      ∀ v, v < feasibleInput.technicians.length →
        RouteTechOK feasibleInput
          ((greedySolve feasibleInput).routes.getD v default)
          (feasibleInput.technicians.getD v default)) :=
  have hy : ∀ t ∈ feasibleInput.technicians, 0 ≤ t.max_hours := by
    intro t ht
    rw [List.mem_singleton.mp ht]
    norm_num
  ⟨hy, (C2_temporal_feasibility feasibleInput hy).1⟩

/-! ### Claim C1: partition and uniqueness -/

theorem greedySolve_routes (I : SolverInput) :
    (greedySolve I).routes =
      (greedyTechLoop I (sortedWoIndices I)
        (List.range I.technicians.length) ∅).1 := rfl

theorem greedySolve_unassigned (I : SolverInput) :
    (greedySolve I).unassigned_orders =
      ((List.range I.work_orders.length).filter
        (fun i => i ∉ (greedyTechLoop I (sortedWoIndices I)
          (List.range I.technicians.length) ∅).2.1)).map
        (fun i => (I.work_orders.map (·.id)).getD i "") := rfl

/-- The greedy partition/uniqueness bundle. -/
theorem greedy_partition (I : SolverInput)
    (hids : (I.work_orders.map (·.id)).Nodup) :
    ((greedySolve I).routes.map
      (fun r => r.stops.map (·.work_order_id))).flatten.Nodup ∧
    (∀ x, (x ∈ ((greedySolve I).routes.map
        (fun r => r.stops.map (·.work_order_id))).flatten ∨
        x ∈ (greedySolve I).unassigned_orders) ↔
      x ∈ I.work_orders.map (·.id)) ∧
    (∀ x, x ∈ ((greedySolve I).routes.map
        (fun r => r.stops.map (·.work_order_id))).flatten →
      x ∉ (greedySolve I).unassigned_orders) := by
  obtain ⟨picks, hassigned, hnd, hmem, hflat⟩ :=
    greedyTechLoop_picks I (sortedWoIndices I)
      (List.range I.technicians.length) ∅
  rw [Finset.empty_union] at hassigned
  have hpuniv : ∀ p ∈ picks, p < I.work_orders.length := fun p hp =>
    mem_sortedWoIndices.mp (hmem p hp).1
  have hflat' : ((greedySolve I).routes.map
      (fun r => r.stops.map (·.work_order_id))).flatten =
      picks.map (fun w => (I.work_orders.getD w default).id) := by
    rw [greedySolve_routes]
    exact hflat
  have hun := greedySolve_unassigned I
  rw [hassigned] at hun
  refine ⟨?_, ?_, ?_⟩
  · rw [hflat']
    exact hnd.map_on (fun x hx y hy hxy =>
      id_inj I hids (hpuniv x hx) (hpuniv y hy) hxy)
  · intro x
    constructor
    · rintro (hx | hx)
      · rw [hflat'] at hx
        obtain ⟨w, hw, rfl⟩ := List.mem_map.mp hx
        exact List.mem_map.mpr ⟨I.work_orders.getD w default,
          getD_mem_of_lt' _ w default (hpuniv w hw), rfl⟩
      · rw [hun] at hx
        obtain ⟨i, hi, rfl⟩ := List.mem_map.mp hx
        have hin : i < I.work_orders.length :=
          List.mem_range.mp (List.mem_of_mem_filter hi)
        rw [ids_getD I hin]
        exact List.mem_map.mpr ⟨I.work_orders.getD i default,
          getD_mem_of_lt' _ i default hin, rfl⟩
    · intro hx
      obtain ⟨wo, hwo, rfl⟩ := List.mem_map.mp hx
      obtain ⟨i, hin, hwi⟩ := List.getElem_of_mem hwo
      have hgetD : I.work_orders.getD i default = wo := by
        rw [List.getD_eq_getElem?_getD, List.getElem?_eq_getElem hin,
          Option.getD_some, hwi]
      by_cases hip : i ∈ picks
      · refine Or.inl ?_
        rw [hflat']
        exact List.mem_map.mpr ⟨i, hip, by rw [hgetD]⟩
      · refine Or.inr ?_
        rw [hun]
        refine List.mem_map.mpr ⟨i, ?_, ?_⟩
        · refine List.mem_filter.mpr ⟨List.mem_range.mpr hin, ?_⟩
          simp only [decide_eq_true_eq]
          rw [List.mem_toFinset]
          exact hip
        · rw [ids_getD I hin, hgetD]
  · intro x hx hx'
    rw [hflat'] at hx
    rw [hun] at hx'
    obtain ⟨w, hw, hwx⟩ := List.mem_map.mp hx
    obtain ⟨i, hi, hix⟩ := List.mem_map.mp hx'
    have hin : i < I.work_orders.length :=
      List.mem_range.mp (List.mem_of_mem_filter hi)
    have hieq : i = w := by
      refine id_inj I hids hin (hpuniv w hw) ?_
      rw [← ids_getD I hin, hix, ← hwx]
    have hnotin := (List.mem_filter.mp hi).2
    simp only [decide_eq_true_eq, List.mem_toFinset] at hnotin
    exact hnotin (hieq ▸ hw)

theorem decode_routes_ids (I : SolverInput) (c : Chromosome) :
    (decode_solution I c).routes.map
        (fun r => r.stops.map (·.work_order_id)) =
      (List.range I.technicians.length).map
        (fun v => (decodeTech I c v).1.stops.map (·.work_order_id)) := by
  show (((List.range _).map (decodeTech I c)).map (·.1)).map _ = _
  rw [List.map_map, List.map_map]
  rfl

theorem decode_unassigned_eq (I : SolverInput) (c : Chromosome) :
    (decode_solution I c).unassigned_orders = pySortedStrings
      (((I.work_orders.map (·.id)).dedup).filter
        (fun x => decide (x ∉ ((decode_solution I c).routes.map
          (fun r => r.stops.map (·.work_order_id))).flatten))) := rfl

/-- The genetic-decode partition/uniqueness bundle. -/
theorem decode_partition (I : SolverInput) (c : Chromosome)
    (hids : (I.work_orders.map (·.id)).Nodup) (hwf : ChromWF I c) :
    ((decode_solution I c).routes.map
      (fun r => r.stops.map (·.work_order_id))).flatten.Nodup ∧
    (∀ x, (x ∈ ((decode_solution I c).routes.map
        (fun r => r.stops.map (·.work_order_id))).flatten ∨
        x ∈ (decode_solution I c).unassigned_orders) ↔
      x ∈ I.work_orders.map (·.id)) ∧
    (∀ x, x ∈ ((decode_solution I c).routes.map
        (fun r => r.stops.map (·.work_order_id))).flatten →
      x ∉ (decode_solution I c).unassigned_orders) := by
  have hsubfacts : ∀ v, ∀ x ∈ (decodeTech I c v).1.stops.map
      (·.work_order_id), ∃ w, w < I.work_orders.length ∧
      c.assignments.getD w 0 = v ∧
      x = (I.work_orders.getD w default).id := by
    intro v x hx
    obtain ⟨sub, hsub, hl'⟩ := decodeTech_ids I c v
    rw [hl'] at hx
    obtain ⟨w, hw, rfl⟩ := List.mem_map.mp hx
    have hwt : w ∈ techOrders c v := hsub.subset hw
    exact ⟨w, techOrders_lt I hwf v w hwt, techOrders_assign c v w hwt, rfl⟩
  have hflatmem : ∀ x ∈ ((decode_solution I c).routes.map
      (fun r => r.stops.map (·.work_order_id))).flatten,
      ∃ w, w < I.work_orders.length ∧
        x = (I.work_orders.getD w default).id := by
    intro x hx
    rw [decode_routes_ids] at hx
    obtain ⟨l, hl, hxl⟩ := List.mem_flatten.mp hx
    obtain ⟨v, _, rfl⟩ := List.mem_map.mp hl
    obtain ⟨w, hw, _, hxw⟩ := hsubfacts v x hxl
    exact ⟨w, hw, hxw⟩
  have hunm : ∀ x, x ∈ (decode_solution I c).unassigned_orders ↔
      (x ∈ I.work_orders.map (·.id) ∧
        x ∉ ((decode_solution I c).routes.map
          (fun r => r.stops.map (·.work_order_id))).flatten) := by
    intro x
    rw [decode_unassigned_eq, pySortedStrings,
      (List.perm_insertionSort sLe _).mem_iff, List.mem_filter,
      List.mem_dedup, decide_eq_true_eq]
  refine ⟨?_, ?_, ?_⟩
  · rw [decode_routes_ids, List.nodup_flatten]
    constructor
    · intro l hl
      obtain ⟨v, _, rfl⟩ := List.mem_map.mp hl
      obtain ⟨sub, hsub, hl'⟩ := decodeTech_ids I c v
      rw [hl']
      have hsubnd : sub.Nodup := hsub.nodup (techOrders_nodup I hwf v)
      refine hsubnd.map_on (fun a ha b hb hab => ?_)
      exact id_inj I hids
        (techOrders_lt I hwf v a (hsub.subset ha))
        (techOrders_lt I hwf v b (hsub.subset hb)) hab
    · rw [List.pairwise_map]
      refine List.Pairwise.imp ?_ (List.nodup_range I.technicians.length)
      intro v v' hne x hxv hxv'
      obtain ⟨w, hwn, hwa, hwx⟩ := hsubfacts v x hxv
      obtain ⟨w', hwn', hwa', hwx'⟩ := hsubfacts v' x hxv'
      refine hne ?_
      rw [← hwa, ← hwa']
      rw [id_inj I hids hwn hwn' (by rw [← hwx, ← hwx'])]
  · intro x
    constructor
    · rintro (hx | hx)
      · obtain ⟨w, hw, rfl⟩ := hflatmem x hx
        exact List.mem_map.mpr ⟨I.work_orders.getD w default,
          getD_mem_of_lt' _ w default hw, rfl⟩
      · exact ((hunm x).mp hx).1
    · intro hx
      by_cases hfl : x ∈ ((decode_solution I c).routes.map
          (fun r => r.stops.map (·.work_order_id))).flatten
      · exact Or.inl hfl
      · exact Or.inr ((hunm x).mpr ⟨hx, hfl⟩)
  · intro x hx hx'
    exact ((hunm x).mp hx').2 hx

/-- C1: for every valid input (distinct work-order ids; chromosome
invariants for the genetic decode), the results of GreedySolver and of
GeneticSolver's decode partition the work-order ids: the ids of the route
stops and the unassigned list are disjoint, their union is the input id set,
and no id appears in more than one route nor twice within a route (the
concatenation of all routes' stop-id lists has no duplicate). -/
theorem C1_partition_uniqueness (I : SolverInput)
    (hids : (I.work_orders.map (·.id)).Nodup) :
    (((greedySolve I).routes.map
        (fun r => r.stops.map (·.work_order_id))).flatten.Nodup ∧
      (∀ x, (x ∈ ((greedySolve I).routes.map
          (fun r => r.stops.map (·.work_order_id))).flatten ∨
          x ∈ (greedySolve I).unassigned_orders) ↔
        x ∈ I.work_orders.map (·.id)) ∧
      (∀ x, x ∈ ((greedySolve I).routes.map
          (fun r => r.stops.map (·.work_order_id))).flatten →
        x ∉ (greedySolve I).unassigned_orders)) ∧
    (∀ c : Chromosome, ChromWF I c →
      ((decode_solution I c).routes.map
        (fun r => r.stops.map (·.work_order_id))).flatten.Nodup ∧
      (∀ x, (x ∈ ((decode_solution I c).routes.map
          (fun r => r.stops.map (·.work_order_id))).flatten ∨
          x ∈ (decode_solution I c).unassigned_orders) ↔
        x ∈ I.work_orders.map (·.id)) ∧
      (∀ x, x ∈ ((decode_solution I c).routes.map
          (fun r => r.stops.map (·.work_order_id))).flatten →
        x ∉ (decode_solution I c).unassigned_orders)) :=
  ⟨greedy_partition I hids, fun c hwf => decode_partition I c hids hwf⟩

/-- C1 witness: the theorem applied to a concrete valid two-order instance
with distinct ids. -/
theorem C1_partition_uniqueness_witness :
    ((([⟨"b", "P1", 0, 0, "low", ["x"], 30, 0, 100⟩,
        ⟨"a", "P2", 0, 0, "low", ["x"], 30, 0, 100⟩] :
          List WorkOrder).map (·.id)).Nodup) ∧
    (∀ x, (x ∈ ((greedySolve
        ⟨[⟨"b", "P1", 0, 0, "low", ["x"], 30, 0, 100⟩,
          ⟨"a", "P2", 0, 0, "low", ["x"], 30, 0, 100⟩],
          [⟨"T1", "Tech", [], 0, 0, 8, 0, 480⟩],
          [[0, 1, 2], [1, 0, 3], [2, 3, 0]], 30⟩).routes.map
        (fun r => r.stops.map (·.work_order_id))).flatten ∨
        x ∈ (greedySolve
          ⟨[⟨"b", "P1", 0, 0, "low", ["x"], 30, 0, 100⟩,
            ⟨"a", "P2", 0, 0, "low", ["x"], 30, 0, 100⟩],
            [⟨"T1", "Tech", [], 0, 0, 8, 0, 480⟩],
            [[0, 1, 2], [1, 0, 3], [2, 3, 0]], 30⟩).unassigned_orders) ↔
      x ∈ ([⟨"b", "P1", 0, 0, "low", ["x"], 30, 0, 100⟩,
        ⟨"a", "P2", 0, 0, "low", ["x"], 30, 0, 100⟩] :
          List WorkOrder).map (·.id)) :=
  have hids : (([⟨"b", "P1", 0, 0, "low", ["x"], 30, 0, 100⟩,
      ⟨"a", "P2", 0, 0, "low", ["x"], 30, 0, 100⟩] :
        List WorkOrder).map (·.id)).Nodup := by decide
  ⟨hids, (C1_partition_uniqueness
    ⟨[⟨"b", "P1", 0, 0, "low", ["x"], 30, 0, 100⟩,
      ⟨"a", "P2", 0, 0, "low", ["x"], 30, 0, 100⟩],
      [⟨"T1", "Tech", [], 0, 0, 8, 0, 480⟩],
      [[0, 1, 2], [1, 0, 3], [2, 3, 0]], 30⟩ hids).1.2.1⟩

/-! ### Claim C4: the fitness function decomposes into the specified sums

The spec-side components below each re-walk a technician's decoded order
list with the same cursor/clock updates as the fitness loop, accumulating a
single quantity. -/

/-- Total travel distance of one technician's list (matrix lookups from the
home node along the visit sequence). -/
def routeTravelDistance (I : SolverInput) : ℕ → List ℕ → ℚ
  | _, [] => 0
  | node, w :: ws =>
    candDist I node w + routeTravelDistance I (woNode I w) ws

/-- Number of stops whose required skills are not covered. -/
def skillViolationCount (I : SolverInput) (tech : Technician) : List ℕ → ℕ
  | [] => 0
  | w :: ws =>
    (if check_skill_match tech.skills
        (I.work_orders.getD w default).required_skills then 0 else 1) +
      skillViolationCount I tech ws

/-- Sum of hours-late beyond each window end (weighted later by 200). -/
def lateHoursSum (I : SolverInput) : ℕ → ℚ → List ℕ → ℚ
  | _, _, [] => 0
  | node, time, w :: ws =>
    let wo := I.work_orders.getD w default
    let arrival := max (time + travelTime (candDist I node w) I.avg_speed)
      wo.time_window_start
    (if arrival > wo.time_window_end then
      (arrival - wo.time_window_end) / 60 else 0) +
      lateHoursSum I (woNode I w) (arrival + wo.duration_minutes) ws

/-- Sum of hours past the shift end at each stop (weighted later by 300). -/
def shiftOverHoursSum (I : SolverInput) (tech : Technician) :
    ℕ → ℚ → List ℕ → ℚ
  | _, _, [] => 0
  | node, time, w :: ws =>
    let wo := I.work_orders.getD w default
    let arrival := max (time + travelTime (candDist I node w) I.avg_speed)
      wo.time_window_start
    let newTime := arrival + wo.duration_minutes
    (if newTime > tech.shift_end then (newTime - tech.shift_end) / 60
      else 0) +
      shiftOverHoursSum I tech (woNode I w) newTime ws

/-- The technician's accumulated travel-plus-service hours. -/
def usedHoursSum (I : SolverInput) : ℕ → List ℕ → ℚ
  | _, [] => 0
  | node, w :: ws =>
    (travelTime (candDist I node w) I.avg_speed +
        (I.work_orders.getD w default).duration_minutes) / 60 +
      usedHoursSum I (woNode I w) ws

theorem fitness_foldl_spec (I : SolverInput) (tech : Technician) :
    ∀ (ws : List ℕ) (st : FitState),
      (ws.foldl (fitnessStep I tech) st).total_distance =
          st.total_distance + routeTravelDistance I st.node ws ∧
      (ws.foldl (fitnessStep I tech) st).used =
          st.used + usedHoursSum I st.node ws ∧
      (ws.foldl (fitnessStep I tech) st).penalty =
          st.penalty +
            SKILL_VIOLATION_PENALTY * (skillViolationCount I tech ws : ℚ) +
            TIME_WINDOW_VIOLATION_PENALTY *
              lateHoursSum I st.node st.time ws +
            CAPACITY_VIOLATION_PENALTY *
              shiftOverHoursSum I tech st.node st.time ws := by
  intro ws
  induction ws with
  | nil =>
    intro st
    refine ⟨?_, ?_, ?_⟩ <;>
      simp [routeTravelDistance, usedHoursSum, skillViolationCount,
        lateHoursSum, shiftOverHoursSum]
  | cons w rest ih =>
    intro st
    obtain ⟨htd, hus, hpen⟩ := ih (fitnessStep I tech st w)
    have hnode : (fitnessStep I tech st w).node = woNode I w := rfl
    have htime : (fitnessStep I tech st w).time =
        max (st.time + travelTime (candDist I st.node w) I.avg_speed)
          (I.work_orders.getD w default).time_window_start +
          (I.work_orders.getD w default).duration_minutes := rfl
    rw [hnode] at htd hus hpen
    rw [htime] at hpen
    rw [List.foldl_cons]
    refine ⟨?_, ?_, ?_⟩
    · rw [htd]
      show st.total_distance + candDist I st.node w + _ = _
      rw [routeTravelDistance]
      show _ = st.total_distance + (candDist I st.node w + _)
      rw [add_assoc]
    · rw [hus]
      show st.used + (travelTime (candDist I st.node w) I.avg_speed +
          (I.work_orders.getD w default).duration_minutes) / 60 + _ = _
      rw [usedHoursSum, add_assoc]
    · rw [hpen]
      show st.penalty +
          (if check_skill_match tech.skills
              (I.work_orders.getD w default).required_skills then (0 : ℚ)
            else SKILL_VIOLATION_PENALTY) +
          (if max (st.time + travelTime (candDist I st.node w) I.avg_speed)
                (I.work_orders.getD w default).time_window_start >
              (I.work_orders.getD w default).time_window_end then
            TIME_WINDOW_VIOLATION_PENALTY *
              ((max (st.time + travelTime (candDist I st.node w) I.avg_speed)
                  (I.work_orders.getD w default).time_window_start -
                (I.work_orders.getD w default).time_window_end) / 60)
          else 0) +
          (if max (st.time + travelTime (candDist I st.node w) I.avg_speed)
                (I.work_orders.getD w default).time_window_start +
              (I.work_orders.getD w default).duration_minutes >
              tech.shift_end then
            CAPACITY_VIOLATION_PENALTY *
              ((max (st.time + travelTime (candDist I st.node w) I.avg_speed)
                  (I.work_orders.getD w default).time_window_start +
                (I.work_orders.getD w default).duration_minutes -
                tech.shift_end) / 60)
          else 0) +
          SKILL_VIOLATION_PENALTY *
            (skillViolationCount I tech rest : ℚ) +
          TIME_WINDOW_VIOLATION_PENALTY *
            lateHoursSum I (woNode I w)
              (max (st.time + travelTime (candDist I st.node w) I.avg_speed)
                  (I.work_orders.getD w default).time_window_start +
                (I.work_orders.getD w default).duration_minutes) rest +
          CAPACITY_VIOLATION_PENALTY *
            shiftOverHoursSum I tech (woNode I w)
              (max (st.time + travelTime (candDist I st.node w) I.avg_speed)
                  (I.work_orders.getD w default).time_window_start +
                (I.work_orders.getD w default).duration_minutes) rest = _
      rw [skillViolationCount, lateHoursSum, shiftOverHoursSum]
      push_cast
      by_cases hsk : check_skill_match tech.skills
          (I.work_orders.getD w default).required_skills
      · rw [if_pos hsk, if_pos hsk]
        by_cases hl : max (st.time + travelTime (candDist I st.node w)
              I.avg_speed) (I.work_orders.getD w default).time_window_start >
            (I.work_orders.getD w default).time_window_end <;>
          by_cases hs : max (st.time + travelTime (candDist I st.node w)
              I.avg_speed) (I.work_orders.getD w default).time_window_start +
              (I.work_orders.getD w default).duration_minutes >
              tech.shift_end <;>
          simp only [if_pos, if_neg, hl, hs, if_true, if_false] <;> ring
      · rw [if_neg hsk, if_neg hsk]
        by_cases hl : max (st.time + travelTime (candDist I st.node w)
              I.avg_speed) (I.work_orders.getD w default).time_window_start >
            (I.work_orders.getD w default).time_window_end <;>
          by_cases hs : max (st.time + travelTime (candDist I st.node w)
              I.avg_speed) (I.work_orders.getD w default).time_window_start +
              (I.work_orders.getD w default).duration_minutes >
              tech.shift_end <;>
          simp only [if_pos, if_neg, hl, hs, if_true, if_false] <;> ring

/-- The penalty contribution of one technician in the fitness function. -/
def techPenalty (I : SolverInput) (c : Chromosome) (v : ℕ) : ℚ :=
  SKILL_VIOLATION_PENALTY *
      (skillViolationCount I (I.technicians.getD v default)
        (techOrders c v) : ℚ) +
    TIME_WINDOW_VIOLATION_PENALTY *
      lateHoursSum I v (I.technicians.getD v default).shift_start
        (techOrders c v) +
    CAPACITY_VIOLATION_PENALTY *
      shiftOverHoursSum I (I.technicians.getD v default) v
        (I.technicians.getD v default).shift_start (techOrders c v) +
    (if usedHoursSum I v (techOrders c v) >
        (I.technicians.getD v default).max_hours then
      CAPACITY_VIOLATION_PENALTY *
        (usedHoursSum I v (techOrders c v) -
          (I.technicians.getD v default).max_hours)
    else 0)

theorem fitnessTech_spec (I : SolverInput) (c : Chromosome) (acc : ℚ × ℚ)
    (v : ℕ) :
    fitnessTech I c acc v =
      (acc.1 + routeTravelDistance I v (techOrders c v),
        acc.2 + techPenalty I c v) := by
  obtain ⟨htd, hus, hpen⟩ := fitness_foldl_spec I
    (I.technicians.getD v default) (techOrders c v)
    { node := v, time := (I.technicians.getD v default).shift_start
      used := 0, total_distance := acc.1, penalty := acc.2 }
  dsimp only at htd hus hpen
  rw [zero_add] at hus
  show ((techOrders c v).foldl (fitnessStep I
      (I.technicians.getD v default)) _ |>.total_distance, _) = _
  rw [Prod.mk.injEq]
  constructor
  · exact htd
  · rw [hpen, hus, techPenalty]
    by_cases hu : usedHoursSum I v (techOrders c v) >
        (I.technicians.getD v default).max_hours
    · rw [if_pos hu]
      ring
    · rw [if_neg hu]
      ring

theorem fitness_outer (I : SolverInput) (c : Chromosome) :
    ∀ (vs : List ℕ) (acc : ℚ × ℚ),
      vs.foldl (fitnessTech I c) acc =
        (acc.1 + (vs.map
            (fun v => routeTravelDistance I v (techOrders c v))).sum,
          acc.2 + (vs.map (techPenalty I c)).sum) := by
  intro vs
  induction vs with
  | nil => intro acc; simp
  | cons v rest ih =>
    intro acc
    rw [List.foldl_cons, fitnessTech_spec, ih, List.map_cons, List.map_cons,
      List.sum_cons, List.sum_cons]
    show (_, _) = (_, _)
    rw [Prod.mk.injEq]
    constructor <;> dsimp only <;> ring

/-! ### Claim C4 -/

/-- C4: for every chromosome, the genetic fitness equals the total travel
distance (matrix lookups along each technician's decoded sequence from the
home node), plus 500 per stop whose required skills are not covered by the
assigned technician, plus 200 per hour by which a stop's (wait-adjusted)
arrival exceeds its window end, plus 300 per hour by which the running time
exceeds the shift end at each stop, plus 300 per hour by which each
technician's accumulated travel-plus-service hours exceed max-hours; early
arrivals wait and incur no penalty. -/
theorem C4_fitness_decomposition (I : SolverInput) (c : Chromosome) :
    evaluate_fitness I c =
      ((List.range I.technicians.length).map
        (fun v => routeTravelDistance I v (techOrders c v))).sum +
      SKILL_VIOLATION_PENALTY *
        ((List.range I.technicians.length).map
          (fun v => (skillViolationCount I (I.technicians.getD v default)
            (techOrders c v) : ℚ))).sum +
      TIME_WINDOW_VIOLATION_PENALTY *
        ((List.range I.technicians.length).map
          (fun v => lateHoursSum I v
            (I.technicians.getD v default).shift_start (techOrders c v))).sum
      + CAPACITY_VIOLATION_PENALTY *
        ((List.range I.technicians.length).map
          (fun v => shiftOverHoursSum I (I.technicians.getD v default) v
            (I.technicians.getD v default).shift_start
            (techOrders c v))).sum +
      CAPACITY_VIOLATION_PENALTY *
        ((List.range I.technicians.length).map
          (fun v => if usedHoursSum I v (techOrders c v) >
              (I.technicians.getD v default).max_hours then
            usedHoursSum I v (techOrders c v) -
              (I.technicians.getD v default).max_hours
          else 0)).sum := by
  rw [evaluate_fitness, fitness_outer]
  show (0 : ℚ) + _ + ((0 : ℚ) + _) = _
  rw [zero_add, zero_add]
  have hpen : ((List.range I.technicians.length).map
      (techPenalty I c)).sum =
      SKILL_VIOLATION_PENALTY *
        ((List.range I.technicians.length).map
          (fun v => (skillViolationCount I (I.technicians.getD v default)
            (techOrders c v) : ℚ))).sum +
      TIME_WINDOW_VIOLATION_PENALTY *
        ((List.range I.technicians.length).map
          (fun v => lateHoursSum I v
            (I.technicians.getD v default).shift_start
            (techOrders c v))).sum +
      CAPACITY_VIOLATION_PENALTY *
        ((List.range I.technicians.length).map
          (fun v => shiftOverHoursSum I (I.technicians.getD v default) v
            (I.technicians.getD v default).shift_start
            (techOrders c v))).sum +
      CAPACITY_VIOLATION_PENALTY *
        ((List.range I.technicians.length).map
          (fun v => if usedHoursSum I v (techOrders c v) >
              (I.technicians.getD v default).max_hours then
            usedHoursSum I v (techOrders c v) -
              (I.technicians.getD v default).max_hours
          else 0)).sum := by
    unfold techPenalty
    rw [List.sum_map_add, List.sum_map_add, List.sum_map_add,
      List.sum_map_mul_left, List.sum_map_mul_left, List.sum_map_mul_left]
    have hcap : ((List.range I.technicians.length).map
        (fun v => if usedHoursSum I v (techOrders c v) >
            (I.technicians.getD v default).max_hours then
          CAPACITY_VIOLATION_PENALTY *
            (usedHoursSum I v (techOrders c v) -
              (I.technicians.getD v default).max_hours)
        else 0)).sum =
        CAPACITY_VIOLATION_PENALTY *
          ((List.range I.technicians.length).map
            (fun v => if usedHoursSum I v (techOrders c v) >
                (I.technicians.getD v default).max_hours then
              usedHoursSum I v (techOrders c v) -
                (I.technicians.getD v default).max_hours
            else 0)).sum := by
      rw [← List.sum_map_mul_left]
      refine congrArg List.sum (List.map_congr_left (fun v _ => ?_))
      by_cases hu : usedHoursSum I v (techOrders c v) >
          (I.technicians.getD v default).max_hours
      · rw [if_pos hu, if_pos hu]
      · rw [if_neg hu, if_neg hu, mul_zero]
    rw [hcap]
  rw [hpen]
  ring

/-! ### Claim C10 -/

theorem sorted_headD_le {l : List ℚ} (hs : List.Sorted (· ≤ ·) l) {x : ℚ}
    (hx : x ∈ l) : l.headD 0 ≤ x := by
  cases l with
  | nil => exact absurd hx (List.not_mem_nil x)
  | cons h t =>
    rcases List.mem_cons.mp hx with rfl | hx'
    · exact le_refl _
    · exact (List.sorted_cons.mp hs).1 x hx'

theorem nextGeneration_sorted (e : ℕ) (pop children : List ℚ) :
    List.Sorted (· ≤ ·) (nextGeneration e pop children) :=
  List.sorted_insertionSort _ _

theorem nextGeneration_ne_nil (e : ℕ) (he : 1 ≤ e) {pop : List ℚ}
    (hne : pop ≠ []) (children : List ℚ) :
    nextGeneration e pop children ≠ [] := by
  intro h
  have hlen := (List.perm_insertionSort ((· ≤ ·) : ℚ → ℚ → Prop)
    (pop.take e ++ children)).length_eq
  rw [nextGeneration] at h
  rw [h, List.length_nil, List.length_append] at hlen
  have htake : pop.take e = [] := by
    cases htk : pop.take e with
    | nil => rfl
    | cons a t =>
      exfalso
      rw [htk] at hlen
      rw [List.length_cons] at hlen
      omega
  rw [List.take_eq_nil_iff] at htake
  rcases htake with h0 | h0
  · omega
  · exact hne h0

/-- One generation cannot worsen the best fitness: the old best survives via
the elites, and the new population is sorted. -/
theorem nextGeneration_best_le (e : ℕ) (he : 1 ≤ e) {pop : List ℚ}
    (hs : List.Sorted (· ≤ ·) pop) (hne : pop ≠ []) (children : List ℚ) :
    (nextGeneration e pop children).headD 0 ≤ pop.headD 0 := by
  cases pop with
  | nil => exact absurd rfl hne
  | cons p rest =>
    have hmem : p ∈ nextGeneration e (p :: rest) children := by
      rw [nextGeneration,
        (List.perm_insertionSort ((· ≤ ·) : ℚ → ℚ → Prop) _).mem_iff]
      refine List.mem_append_left _ ?_
      cases e with
      | zero => omega
      | succ k =>
        rw [List.take_succ_cons]
        exact List.mem_cons_self ..
    exact sorted_headD_le (nextGeneration_sorted e (p :: rest) children) hmem

theorem convergenceHistory_head (e : ℕ) (pop : List ℚ)
    (cs : List (List ℚ)) :
    (convergenceHistory e pop cs).head? = some (pop.headD 0) := by
  cases cs <;> rfl

/-- C10: with at least one elite carried forward unchanged, the best
(minimum) fitness of the sorted population never increases from one
generation to the next, so the recorded convergence history is monotonically
non-increasing — for every stream of offspring fitness values, i.e. for
every run and every seed. -/
theorem C10_convergence_monotone (elite_size : ℕ) (he : 1 ≤ elite_size)
    (pop0 : List ℚ) (hs : List.Sorted (· ≤ ·) pop0) (hne : pop0 ≠ [])
    (childrenSeq : List (List ℚ)) :
    List.Chain' (fun a b => b ≤ a)
      (convergenceHistory elite_size pop0 childrenSeq) := by
  induction childrenSeq generalizing pop0 with
  | nil => exact List.chain'_singleton _
  | cons children rest ih =>
    rw [convergenceHistory]
    rw [List.chain'_cons']
    constructor
    · intro b hb
      rw [convergenceHistory_head, Option.mem_def] at hb
      cases Option.some.inj hb
      exact nextGeneration_best_le elite_size he hs hne children
    · exact ih (nextGeneration elite_size pop0 children)
        (nextGeneration_sorted ..)
        (nextGeneration_ne_nil elite_size he hne children)

/-- C10 witness: the theorem applied to a singleton sorted population and
one generation of offspring. -/
theorem C10_convergence_monotone_witness :
    (1 ≤ 10 ∧ List.Sorted (· ≤ ·) ([1] : List ℚ) ∧ ([1] : List ℚ) ≠ []) ∧
    List.Chain' (fun a b => b ≤ a)
      (convergenceHistory 10 ([1] : List ℚ) [[2]]) :=
  have h1 : (1 : ℕ) ≤ 10 := by norm_num
  have h2 : List.Sorted (· ≤ ·) ([1] : List ℚ) := List.sorted_singleton 1
  have h3 : ([1] : List ℚ) ≠ [] := List.cons_ne_nil 1 []
  ⟨⟨h1, h2, h3⟩, C10_convergence_monotone 10 h1 [1] h2 h3 [[2]]⟩

/-! ## Fuel adequacy of the greedy loop

The `while improved` loop of the source stops exactly when no feasible
candidate remains; `buildLoop` stops either then or when the fuel runs out.
The two agree because every iteration consumes one unassigned element of the
scanned list, so any fuel of at least the number of unassigned scanned
indices (in particular `idxs.length`) computes the loop's true fixed
point. -/

theorem buildLoop_none (I : SolverInput) (tech : Technician) (idxs : List ℕ)
    (st : BuildState)
    (hsel : selectBest I tech st.assigned st.node st.time st.used idxs =
      none) : ∀ f, buildLoop I tech idxs f st = st := by
  intro f
  cases f with
  | zero => rfl
  | succ f' => rw [buildLoop, hsel]

theorem filter_notMem_insert_length_lt {l : List ℕ} {A : Finset ℕ} {b : ℕ}
    (hb : b ∈ l) (hbA : b ∉ A) :
    (l.filter (fun x => x ∉ insert b A)).length <
      (l.filter (fun x => x ∉ A)).length := by
  have hsub : List.Sublist (l.filter (fun x => x ∉ insert b A))
      (l.filter (fun x => x ∉ A)) := by
    refine List.monotone_filter_right l (fun x hx => ?_)
    rw [decide_eq_true_eq] at hx ⊢
    exact fun hxA => hx (Finset.mem_insert_of_mem hxA)
  refine Nat.lt_of_le_of_ne hsub.length_le (fun heq => ?_)
  have heql := hsub.eq_of_length heq
  have hbmem : b ∈ l.filter (fun x => x ∉ A) :=
    List.mem_filter.mpr ⟨hb, by rw [decide_eq_true_eq]; exact hbA⟩
  rw [← heql] at hbmem
  have := (List.mem_filter.mp hbmem).2
  rw [decide_eq_true_eq] at this
  exact this (Finset.mem_insert_self b A)

theorem buildLoop_fuel_independent (I : SolverInput) (tech : Technician)
    (idxs : List ℕ) :
    ∀ (m : ℕ) (st : BuildState) (f1 f2 : ℕ),
      (idxs.filter (fun x => x ∉ st.assigned)).length = m →
      m ≤ f1 → m ≤ f2 →
      buildLoop I tech idxs f1 st = buildLoop I tech idxs f2 st := by
  intro m
  induction m using Nat.strong_induction_on with
  | _ m ih =>
    intro st f1 f2 hm h1 h2
    cases hsel : selectBest I tech st.assigned st.node st.time st.used idxs
      with
    | none =>
      rw [buildLoop_none I tech idxs st hsel f1,
        buildLoop_none I tech idxs st hsel f2]
    | some bd =>
      obtain ⟨b, d⟩ := bd
      obtain ⟨hbl, hbA, _⟩ := selectBest_cand hsel
      have hbf : b ∈ idxs.filter (fun x => x ∉ st.assigned) :=
        List.mem_filter.mpr ⟨hbl, by rw [decide_eq_true_eq]; exact hbA⟩
      have hmpos : 0 < m := by
        rw [← hm]
        exact List.length_pos_of_mem hbf
      cases f1 with
      | zero => omega
      | succ f1' =>
        cases f2 with
        | zero => omega
        | succ f2' =>
          rw [buildLoop, hsel, buildLoop, hsel]
          have hA' : (commitStop I st b).assigned = insert b st.assigned :=
            rfl
          have hlt : ((idxs.filter
              (fun x => x ∉ (commitStop I st b).assigned)).length) < m := by
            rw [hA', ← hm]
            exact filter_notMem_insert_length_lt hbl hbA
          exact ih _ hlt (commitStop I st b) f1' f2' rfl (by omega) (by omega)

end RouteOpt
